import Mathlib

/-!
# Verification of the netflux runtime against its specification

Shallow embedding of the netflux orchestrator (Python) in Lean 4.

* `src/runtime.py` — the `Runtime` class: registration BFS, `invoke`,
  lifecycle posting (`post_status_update`, `post_success`, `post_exception`),
  the observable layer (`_ensure_observable`, `_build_node_view`,
  `_publish_tree_update`, `watch`), and `_build_session_bags`.
* `src/providers/gemini.py` — the `GeminiAgentNode` tool-call loop
  (`run`, `_accumulate_usage`) with `MAX_STEPS = 64`.

The repository's `core.py` (Node/RunContext/exception classes) is not part
of the sources provided under `src/`; where a definition depends on it, the
definition carries a doc comment starting with `Modelled from the spec:`
and follows the specification's words for the missing part.

Python machine integers are unbounded, so counters are `Nat`/`Int`; the
runtime mutex serializes all mutations, so the runtime is embedded as a
sequential state machine whose steps are the mutex-protected critical
sections of `runtime.py`.
-/

namespace Netflux

/-- `NodeState` enum of the runtime (`Waiting | Running | Success | Error | Canceled`). -/
inductive NodeState where
  | Waiting
  | Running
  | Success
  | Error
  | Canceled
deriving DecidableEq, Repr

/-- Terminal states per the spec's lifecycle: `Success`, `Error`, `Canceled`. -/
def NodeState.isTerminal : NodeState → Bool
  | .Success => true
  | .Error => true
  | .Canceled => true
  | _ => false

/-- The error taxonomy of the spec (§4.7); exception *classes* of the Python
code are represented by their kind tag.  `RuntimeErr` stands for Python's
builtin `RuntimeError`, `OtherErr` for any other ordinary exception. -/
inductive ExcKind where
  | Cancellation
  | AgentAbort
  | ArgumentValidation
  | UnknownTool
  | ModelProvider
  | ToolLoopExhausted
  | RuntimeErr
  | OtherErr
deriving DecidableEq, Repr

/-- An exception value: its class kind and its message. -/
structure Exc where
  kind : ExcKind
  msg : String
deriving DecidableEq, Repr

/-- Node outputs (`Any` in Python) are abstracted as strings; none of the
verified claims inspects output values beyond identity. -/
abbrev Val := String

/-- Immutable snapshot of a node (`NodeView` in `core.py`, fields as read by
`Runtime._build_node_view`): id, state, outputs, exception, children views,
and the global seqnum at publish time. -/
inductive NodeView where
  | mk (id : Nat) (state : NodeState) (outputs : Option Val) (exc : Option Exc)
       (children : List NodeView) (update_seqnum : Nat)

/-- Mutable per-node record owned by the runtime: parent link, ordered
children list, lifecycle fields, and the `done` completion signal. -/
structure NodeRec where
  parent : Option Nat
  children : List Nat
  state : NodeState
  outputs : Option Val
  exc : Option Exc
  done : Bool
deriving DecidableEq, Repr

/-- `NodeObservable` of `runtime.py`: last-touched seqnum and current view.
The condition variable is not data; waking waiters is modelled by `watchNow`
reading the state. -/
structure Obs where
  touch_seqno : Nat
  view : NodeView

/-- The runtime's mutable state: global seqnum, node-id counter, node table,
observable table, and root list (`Runtime.__init__` fields). -/
structure RtState where
  global_seqno : Nat
  next_node_id : Nat
  nodes : Nat → Option NodeRec
  obs : Nat → Option Obs
  roots : List Nat

/-- The empty runtime right after construction: seqnum 0, no nodes. -/
def initState : RtState :=
  { global_seqno := 0, next_node_id := 0, nodes := fun _ => none,
    obs := fun _ => none, roots := [] }

/-- Parent pointer of a registered node. -/
def parentOf (s : RtState) (n : Nat) : Option Nat :=
  match s.nodes n with
  | some r => r.parent
  | none => none

/-- `a` is `n` itself or one of its ancestors, following parent links. -/
inductive Ancestor (s : RtState) : Nat → Nat → Prop
  | refl (n : Nat) : Ancestor s n n
  | step {n p a : Nat} : parentOf s n = some p → Ancestor s a p → Ancestor s a n

/-- Read a child's current view from its observable
(`_ensure_observable(child).view` inside `_build_node_view`; every child of
a registered node already has an observable, so the `none` branch is
unreachable in reachable states). -/
def viewOfChild (s : RtState) (c : Nat) : NodeView :=
  match s.obs c with
  | some o => o.view
  | none => NodeView.mk c NodeState.Waiting none none [] s.global_seqno

/-- `Runtime._build_node_view`: snapshot the node's fields and its children's
current views, stamped with the current global seqnum. -/
def buildNodeView (s : RtState) (n : Nat) : NodeView :=
  match s.nodes n with
  | some r =>
      NodeView.mk n r.state r.outputs r.exc (r.children.map (viewOfChild s)) s.global_seqno
  | none => NodeView.mk n NodeState.Waiting none none [] s.global_seqno

/-- `Runtime._ensure_observable`: return the node's observable, creating it
with the current seqnum and a fresh view if absent. -/
def ensureObs (s : RtState) (n : Nat) : Obs :=
  match s.obs n with
  | some o => o
  | none => { touch_seqno := s.global_seqno, view := buildNodeView s n }

/-- Install an observable for node `n`. -/
def setObs (s : RtState) (n : Nat) (o : Obs) : RtState :=
  { s with obs := fun m => if m = n then some o else s.obs m }

/-- One step of `Runtime._publish_tree_update` at node `n`: ensure the
observable exists, and if its seqnum is stale, rebuild the view, stamp it
with the global seqnum and broadcast. -/
def publishNode (s : RtState) (n : Nat) : RtState :=
  let o := ensureObs s n
  let s1 := setObs s n o
  if o.touch_seqno < s.global_seqno then
    setObs s1 n { touch_seqno := s.global_seqno, view := buildNodeView s1 n }
  else s1

/-- `Runtime._publish_tree_update`: walk from the node to the root,
refreshing each observable.  Fuel bounds the walk; since parent ids are
strictly smaller than child ids, fuel `n+1` always suffices. -/
def publishWalk : Nat → RtState → Option Nat → RtState
  | _, s, none => s
  | 0, s, some _ => s
  | fuel + 1, s, some n =>
      match s.nodes n with
      | none => s
      | some r => publishWalk fuel (publishNode s n) r.parent

/-- Publish an update for node `n` and all its ancestors. -/
def publishTree (s : RtState) (n : Nat) : RtState :=
  publishWalk (n + 1) s (some n)

/-- Update one node record in the table. -/
def setNode (s : RtState) (n : Nat) (r : NodeRec) : RtState :=
  { s with nodes := fun m => if m = n then some r else s.nodes m }

/-- The runtime mutations of `runtime.py` that touch the tree: node creation
by `Runtime.invoke` (with the caller as parent, or none for a root), and the
three lifecycle posts. -/
inductive Mutation where
  | create (caller : Option Nat)
  | postStatus (n : Nat) (st : NodeState)
  | postSuccess (n : Nat) (out : Val)
  | postException (n : Nat) (e : Exc)
deriving DecidableEq, Repr

/-- The node id a mutation touches (for `create`, the id it will allocate). -/
def Mutation.target (s : RtState) : Mutation → Nat
  | .create _ => s.next_node_id
  | .postStatus n _ => n
  | .postSuccess n _ => n
  | .postException n _ => n

/-- A newly constructed node record: node construction itself lives in
`core.py`; the spec's lifecycle summary fixes the created state as Waiting,
with empty children and an unset done-signal. -/
def freshNode (caller : Option Nat) : NodeRec :=
  { parent := caller, children := [], state := NodeState.Waiting,
    outputs := none, exc := none, done := false }

/-- The registration critical section of `Runtime.invoke` (lines 128-171):
allocate a node id, insert the fresh node into the table, append it to the
caller's children (or to the roots), bump the global seqnum, and publish the
tree update for the new node. -/
def invokeCreate (s : RtState) (caller : Option Nat) : RtState :=
  let nid := s.next_node_id
  let s0 := { s with next_node_id := nid + 1 }
  let s1 := setNode s0 nid (freshNode caller)
  let s2 :=
    match caller with
    | none => { s1 with roots := s1.roots ++ [nid] }
    | some c =>
        match s1.nodes c with
        | some cr => setNode s1 c { cr with children := cr.children ++ [nid] }
        | none => s1
  let s3 := { s2 with global_seqno := s2.global_seqno + 1 }
  publishTree s3 nid

/-- `Runtime.post_status_update`: bump the seqnum, set the node's state,
publish.  It does not touch `outputs`, `exception` or the done-signal. -/
def postStatusUpdate (s : RtState) (n : Nat) (st : NodeState) : RtState :=
  match s.nodes n with
  | none => s
  | some r =>
      let s1 := { s with global_seqno := s.global_seqno + 1 }
      let s2 := setNode s1 n { r with state := st }
      publishTree s2 n

/-- `Runtime.post_success`: bump the seqnum, store outputs, set state
`Success`, publish, then set the node's done-signal. -/
def postSuccess (s : RtState) (n : Nat) (out : Val) : RtState :=
  match s.nodes n with
  | none => s
  | some r =>
      let s1 := { s with global_seqno := s.global_seqno + 1 }
      let s2 := setNode s1 n { r with outputs := some out, state := NodeState.Success }
      let s3 := publishTree s2 n
      match s3.nodes n with
      | some r3 => setNode s3 n { r3 with done := true }
      | none => s3

/-- `Runtime.post_exception`: bump the seqnum, store the exception, set state
`Error` (unconditionally — the kind of the exception is not inspected),
publish, then set the node's done-signal. -/
def postException (s : RtState) (n : Nat) (e : Exc) : RtState :=
  match s.nodes n with
  | none => s
  | some r =>
      let s1 := { s with global_seqno := s.global_seqno + 1 }
      let s2 := setNode s1 n { r with exc := some e, state := NodeState.Error }
      let s3 := publishTree s2 n
      match s3.nodes n with
      | some r3 => setNode s3 n { r3 with done := true }
      | none => s3

/-- Apply one mutation. -/
def applyMutation (mu : Mutation) (s : RtState) : RtState :=
  match mu with
  | .create caller => invokeCreate s caller
  | .postStatus n st => postStatusUpdate s n st
  | .postSuccess n out => postSuccess s n out
  | .postException n e => postException s n e

/-- `Runtime.watch` as observed at one instant: the call returns the current
view exactly when the observable's `touch_seqno` is strictly greater than
`as_of_seq`; `none` models the blocking branch (`cond.wait()`), as well as
the `KeyError` on an unregistered node id. -/
def watchNow (s : RtState) (nid : Nat) (as_of_seq : Nat) : Option NodeView :=
  match s.obs nid with
  | none => none
  | some o => if as_of_seq < o.touch_seqno then some o.view else none

/-- A mutation is valid when the node it posts about (or the caller it
creates under) is registered — exactly how `runtime.py` is called: posts
take an existing `Node` object, and `invoke`'s caller is a live node. -/
def ValidMut (s : RtState) : Mutation → Prop
  | .create none => True
  | .create (some c) => (s.nodes c).isSome
  | .postStatus n _ => (s.nodes n).isSome
  | .postSuccess n _ => (s.nodes n).isSome
  | .postException n _ => (s.nodes n).isSome

/-- Well-formedness of a runtime state, maintained by every mutation:
observables are never ahead of the global seqnum (the assertion at
`runtime.py:222`), every observable was published after at least one bump,
registered nodes have observables, ids are below the allocator, parent ids
are strictly smaller and registered, and children are registered with the
correct parent ids below the allocator. -/
structure WF (s : RtState) : Prop where
  touch_le : ∀ n o, s.obs n = some o → o.touch_seqno ≤ s.global_seqno
  touch_pos : ∀ n o, s.obs n = some o → 1 ≤ o.touch_seqno
  obs_reg : ∀ n r, s.nodes n = some r → (s.obs n).isSome
  id_bound : ∀ n r, s.nodes n = some r → n < s.next_node_id
  parent_lt : ∀ n r p, s.nodes n = some r → r.parent = some p → p < n
  parent_reg : ∀ n r p, s.nodes n = some r → r.parent = some p → (s.nodes p).isSome

/-- States reachable from a fresh runtime by valid mutations. -/
inductive Reachable : RtState → Prop
  | init : Reachable initState
  | step {s : RtState} (mu : Mutation) :
      Reachable s → ValidMut s mu → Reachable (applyMutation mu s)

/-- The publish walk's itinerary, computed from the node table alone. -/
def chainList (f : Nat → Option NodeRec) : Nat → Option Nat → List Nat
  | _, none => []
  | 0, some _ => []
  | fuel + 1, some n =>
      match f n with
      | none => []
      | some r => n :: chainList f fuel r.parent

lemma setObs_nodes (s : RtState) (n : Nat) (o : Obs) :
    (setObs s n o).nodes = s.nodes := rfl

lemma setObs_global (s : RtState) (n : Nat) (o : Obs) :
    (setObs s n o).global_seqno = s.global_seqno := rfl

lemma publishNode_global (s : RtState) (n : Nat) :
    (publishNode s n).global_seqno = s.global_seqno := by
  unfold publishNode
  dsimp only
  split <;> rfl

lemma publishNode_nodes (s : RtState) (n : Nat) :
    (publishNode s n).nodes = s.nodes := by
  unfold publishNode
  dsimp only
  split <;> rfl

lemma publishNode_next (s : RtState) (n : Nat) :
    (publishNode s n).next_node_id = s.next_node_id := by
  unfold publishNode
  dsimp only
  split <;> rfl

lemma publishNode_roots (s : RtState) (n : Nat) :
    (publishNode s n).roots = s.roots := by
  unfold publishNode
  dsimp only
  split <;> rfl

lemma publishNode_obs_other (s : RtState) (n m : Nat) (hne : m ≠ n) :
    (publishNode s n).obs m = s.obs m := by
  unfold publishNode
  dsimp only
  split <;> simp [setObs, hne]

lemma publishNode_obs_self (s : RtState) (n : Nat)
    (h : ∀ o0, s.obs n = some o0 → o0.touch_seqno ≤ s.global_seqno) :
    ∃ o, (publishNode s n).obs n = some o ∧ o.touch_seqno = s.global_seqno := by
  unfold publishNode ensureObs
  cases hobs : s.obs n with
  | none =>
      dsimp only
      rw [if_neg (by simp)]
      refine ⟨{ touch_seqno := s.global_seqno, view := buildNodeView s n }, ?_, rfl⟩
      simp [setObs]
  | some o0 =>
      dsimp only
      by_cases hlt : o0.touch_seqno < s.global_seqno
      · rw [if_pos hlt]
        refine ⟨{ touch_seqno := s.global_seqno,
                  view := buildNodeView (setObs s n o0) n }, ?_, rfl⟩
        simp [setObs]
      · rw [if_neg hlt]
        refine ⟨o0, by simp [setObs], ?_⟩
        exact Nat.le_antisymm (h o0 hobs) (Nat.le_of_not_lt hlt)

lemma publishNode_touch_mono (s : RtState) (n m : Nat) (o : Obs)
    (h : ∀ o0, s.obs n = some o0 → o0.touch_seqno ≤ s.global_seqno)
    (hm : s.obs m = some o) :
    ∃ o', (publishNode s n).obs m = some o' ∧ o.touch_seqno ≤ o'.touch_seqno := by
  by_cases hne : m = n
  · subst hne
    obtain ⟨o', ho', htouch⟩ := publishNode_obs_self s m h
    exact ⟨o', ho', htouch ▸ h o hm⟩
  · exact ⟨o, by rw [publishNode_obs_other s n m hne]; exact hm, le_refl _⟩

lemma publishNode_touch_le (s : RtState) (n : Nat)
    (h : ∀ m o, s.obs m = some o → o.touch_seqno ≤ s.global_seqno) :
    ∀ m o, (publishNode s n).obs m = some o → o.touch_seqno ≤ (publishNode s n).global_seqno := by
  intro m o hm
  rw [publishNode_global]
  by_cases hne : m = n
  · subst hne
    obtain ⟨o', ho', htouch⟩ := publishNode_obs_self s m (h m)
    rw [ho'] at hm
    cases hm
    exact Nat.le_of_eq htouch
  · rw [publishNode_obs_other s n m hne] at hm
    exact h m o hm

lemma publishNode_touch_pos (s : RtState) (n : Nat)
    (hg : 1 ≤ s.global_seqno)
    (h : ∀ m o, s.obs m = some o → 1 ≤ o.touch_seqno) :
    ∀ m o, (publishNode s n).obs m = some o → 1 ≤ o.touch_seqno := by
  intro m o hm
  by_cases hne : m = n
  · subst hne
    unfold publishNode ensureObs at hm
    cases hobs : s.obs m with
    | none =>
        rw [hobs] at hm
        dsimp only at hm
        rw [if_neg (by simp)] at hm
        simp [setObs] at hm
        rw [← hm]
        exact hg
    | some o0 =>
        rw [hobs] at hm
        dsimp only at hm
        by_cases hlt : o0.touch_seqno < s.global_seqno
        · rw [if_pos hlt] at hm
          simp [setObs] at hm
          rw [← hm]
          exact hg
        · rw [if_neg hlt] at hm
          simp [setObs] at hm
          rw [← hm]
          exact h m o0 hobs
  · rw [publishNode_obs_other s n m hne] at hm
    exact h m o hm

lemma publishNode_obs_isSome (s : RtState) (n m : Nat)
    (hm : (s.obs m).isSome) : ((publishNode s n).obs m).isSome := by
  by_cases hne : m = n
  · subst hne
    unfold publishNode ensureObs
    cases hobs : s.obs m <;> dsimp only <;> split <;> simp [setObs]
  · rw [publishNode_obs_other s n m hne]
    exact hm

lemma publishWalk_global : ∀ (fuel : Nat) (s : RtState) (op : Option Nat),
    (publishWalk fuel s op).global_seqno = s.global_seqno := by
  intro fuel
  induction fuel with
  | zero => intro s op; cases op <;> rfl
  | succ f ih =>
      intro s op
      cases op with
      | none => rfl
      | some n =>
          unfold publishWalk
          cases hn : s.nodes n with
          | none => rfl
          | some r => rw [ih, publishNode_global]

lemma publishWalk_nodes : ∀ (fuel : Nat) (s : RtState) (op : Option Nat),
    (publishWalk fuel s op).nodes = s.nodes := by
  intro fuel
  induction fuel with
  | zero => intro s op; cases op <;> rfl
  | succ f ih =>
      intro s op
      cases op with
      | none => rfl
      | some n =>
          unfold publishWalk
          cases hn : s.nodes n with
          | none => rfl
          | some r => rw [ih, publishNode_nodes]

lemma publishWalk_next : ∀ (fuel : Nat) (s : RtState) (op : Option Nat),
    (publishWalk fuel s op).next_node_id = s.next_node_id := by
  intro fuel
  induction fuel with
  | zero => intro s op; cases op <;> rfl
  | succ f ih =>
      intro s op
      cases op with
      | none => rfl
      | some n =>
          unfold publishWalk
          cases hn : s.nodes n with
          | none => rfl
          | some r => rw [ih, publishNode_next]

lemma publishWalk_roots : ∀ (fuel : Nat) (s : RtState) (op : Option Nat),
    (publishWalk fuel s op).roots = s.roots := by
  intro fuel
  induction fuel with
  | zero => intro s op; cases op <;> rfl
  | succ f ih =>
      intro s op
      cases op with
      | none => rfl
      | some n =>
          unfold publishWalk
          cases hn : s.nodes n with
          | none => rfl
          | some r => rw [ih, publishNode_roots]

lemma publishWalk_touch_le : ∀ (fuel : Nat) (s : RtState) (op : Option Nat),
    (∀ m o, s.obs m = some o → o.touch_seqno ≤ s.global_seqno) →
    ∀ m o, (publishWalk fuel s op).obs m = some o →
      o.touch_seqno ≤ (publishWalk fuel s op).global_seqno := by
  intro fuel
  induction fuel with
  | zero =>
      intro s op h m o
      cases op <;> exact fun hm => h m o hm
  | succ f ih =>
      intro s op h m o
      cases op with
      | none => exact fun hm => h m o hm
      | some n =>
          unfold publishWalk
          cases hn : s.nodes n with
          | none => exact fun hm => h m o hm
          | some r =>
              intro hm
              exact ih (publishNode s n) r.parent
                (by
                  intro m' o' hm'
                  exact publishNode_touch_le s n h m' o' hm') m o hm

lemma publishWalk_touch_pos : ∀ (fuel : Nat) (s : RtState) (op : Option Nat),
    1 ≤ s.global_seqno →
    (∀ m o, s.obs m = some o → 1 ≤ o.touch_seqno) →
    ∀ m o, (publishWalk fuel s op).obs m = some o → 1 ≤ o.touch_seqno := by
  intro fuel
  induction fuel with
  | zero =>
      intro s op hg h m o
      cases op <;> exact fun hm => h m o hm
  | succ f ih =>
      intro s op hg h m o
      cases op with
      | none => exact fun hm => h m o hm
      | some n =>
          unfold publishWalk
          cases hn : s.nodes n with
          | none => exact fun hm => h m o hm
          | some r =>
              intro hm
              exact ih (publishNode s n) r.parent
                (by rw [publishNode_global]; exact hg)
                (publishNode_touch_pos s n hg h) m o hm

lemma publishWalk_obs_isSome : ∀ (fuel : Nat) (s : RtState) (op : Option Nat) (m : Nat),
    (s.obs m).isSome → ((publishWalk fuel s op).obs m).isSome := by
  intro fuel
  induction fuel with
  | zero => intro s op m hm; cases op <;> exact hm
  | succ f ih =>
      intro s op m hm
      cases op with
      | none => exact hm
      | some n =>
          unfold publishWalk
          cases hn : s.nodes n with
          | none => exact hm
          | some r => exact ih (publishNode s n) r.parent m (publishNode_obs_isSome s n m hm)

lemma publishWalk_touch_mono : ∀ (fuel : Nat) (s : RtState) (op : Option Nat) (m : Nat) (o : Obs),
    (∀ m' o', s.obs m' = some o' → o'.touch_seqno ≤ s.global_seqno) →
    s.obs m = some o →
    ∃ o', (publishWalk fuel s op).obs m = some o' ∧ o.touch_seqno ≤ o'.touch_seqno := by
  intro fuel
  induction fuel with
  | zero =>
      intro s op m o h hm
      cases op <;> exact ⟨o, hm, le_refl _⟩
  | succ f ih =>
      intro s op m o h hm
      cases op with
      | none => exact ⟨o, hm, le_refl _⟩
      | some n =>
          unfold publishWalk
          cases hn : s.nodes n with
          | none => exact ⟨o, hm, le_refl _⟩
          | some r =>
              obtain ⟨o1, ho1, hle1⟩ := publishNode_touch_mono s n m o (h n) hm
              obtain ⟨o2, ho2, hle2⟩ := ih (publishNode s n) r.parent m o1
                (by
                  intro m' o' hm'
                  exact publishNode_touch_le s n h m' o' hm') ho1
              exact ⟨o2, ho2, le_trans hle1 hle2⟩

lemma publishWalk_sets_touch : ∀ (fuel : Nat) (s : RtState) (op : Option Nat),
    (∀ m' o', s.obs m' = some o' → o'.touch_seqno ≤ s.global_seqno) →
    ∀ m, m ∈ chainList s.nodes fuel op →
    ∃ o, (publishWalk fuel s op).obs m = some o ∧ o.touch_seqno = s.global_seqno := by
  intro fuel
  induction fuel with
  | zero =>
      intro s op h m hm
      cases op <;> simp [chainList] at hm
  | succ f ih =>
      intro s op h m hm
      cases op with
      | none => simp [chainList] at hm
      | some n =>
          unfold publishWalk
          unfold chainList at hm
          cases hn : s.nodes n with
          | none => rw [hn] at hm; simp at hm
          | some r =>
              rw [hn] at hm
              simp only [List.mem_cons] at hm
              cases hm with
              | inr hm =>
                  have hnodes : (publishNode s n).nodes = s.nodes := publishNode_nodes s n
                  refine ?_
                  have hm' : m ∈ chainList (publishNode s n).nodes f r.parent := by
                    rw [hnodes]; exact hm
                  obtain ⟨o, ho, ht⟩ := ih (publishNode s n) r.parent
                    (by
                      intro m' o' hmo
                      exact publishNode_touch_le s n h m' o' hmo) m hm'
                  rw [publishNode_global] at ht
                  exact ⟨o, ho, ht⟩
              | inl hm =>
                  subst hm
                  obtain ⟨o1, ho1, ht1⟩ := publishNode_obs_self s m (h m)
                  obtain ⟨o2, ho2, hle⟩ := publishWalk_touch_mono f (publishNode s m) r.parent m o1
                    (by
                      intro m' o' hmo
                      exact publishNode_touch_le s m h m' o' hmo) ho1
                  refine ⟨o2, ho2, ?_⟩
                  have hub := publishWalk_touch_le f (publishNode s m) r.parent
                    (by
                      intro m' o' hmo
                      exact publishNode_touch_le s m h m' o' hmo) m o2 ho2
                  rw [publishWalk_global, publishNode_global] at hub
                  omega

lemma chainList_congr (f g : Nat → Option NodeRec)
    (hpres : ∀ m, (f m).isSome = (g m).isSome)
    (hpar : ∀ m r r', f m = some r → g m = some r' → r.parent = r'.parent) :
    ∀ (fuel : Nat) (op : Option Nat), chainList f fuel op = chainList g fuel op := by
  intro fuel
  induction fuel with
  | zero => intro op; cases op <;> rfl
  | succ k ih =>
      intro op
      cases op with
      | none => rfl
      | some n =>
          unfold chainList
          cases hf : f n with
          | none =>
              cases hg : g n with
              | none => rfl
              | some r' => have := hpres n; rw [hf, hg] at this; simp at this
          | some r =>
              cases hg : g n with
              | none => have := hpres n; rw [hf, hg] at this; simp at this
              | some r' =>
                  dsimp only
                  rw [hpar n r r' hf hg, ih]

lemma parentOf_congr (s t : RtState)
    (hpres : ∀ m, (s.nodes m).isSome = (t.nodes m).isSome)
    (hpar : ∀ m r r', s.nodes m = some r → t.nodes m = some r' → r.parent = r'.parent) :
    ∀ m, parentOf s m = parentOf t m := by
  intro m
  unfold parentOf
  cases hf : s.nodes m with
  | none =>
      cases hg : t.nodes m with
      | none => rfl
      | some r' => have := hpres m; rw [hf, hg] at this; simp at this
  | some r =>
      cases hg : t.nodes m with
      | none => have := hpres m; rw [hf, hg] at this; simp at this
      | some r' => exact hpar m r r' hf hg

lemma ancestor_congr (s t : RtState)
    (hp : ∀ m, parentOf s m = parentOf t m) :
    ∀ a n, Ancestor s a n → Ancestor t a n := by
  intro a n h
  induction h with
  | refl n => exact Ancestor.refl n
  | step hpar _ ih => exact Ancestor.step ((hp _).symm ▸ hpar) ih

lemma ancestor_mem_chainList (s : RtState)
    (hreg : ∀ n r p, s.nodes n = some r → r.parent = some p → (s.nodes p).isSome) :
    ∀ a n, Ancestor s a n → ∀ fuel, (s.nodes n).isSome → n < fuel →
      (∀ m r p, s.nodes m = some r → r.parent = some p → p < m) →
      a ∈ chainList s.nodes fuel (some n) := by
  intro a n h
  induction h with
  | refl n =>
      intro fuel hsome hf _
      cases fuel with
      | zero => omega
      | succ k =>
          unfold chainList
          cases hn : s.nodes n with
          | none => rw [hn] at hsome; simp at hsome
          | some r =>
              dsimp only
              exact List.mem_cons_self _ _
  | step hpar hanc ih =>
      rename_i n p a
      intro fuel hsome hf hlt
      cases fuel with
      | zero => omega
      | succ k =>
          unfold chainList
          unfold parentOf at hpar
          cases hn : s.nodes n with
          | none => rw [hn] at hsome; simp at hsome
          | some r =>
              rw [hn] at hpar
              dsimp only at hpar
              dsimp only
              refine List.mem_cons_of_mem _ ?_
              rw [hpar]
              have hpsome : (s.nodes p).isSome := hreg n r p hn hpar
              have hplt : p < n := hlt n r p hn hpar
              exact ih k hpsome (by omega) hlt

lemma setNode_parentOf (s : RtState) (n : Nat) (r r' : NodeRec)
    (hn : s.nodes n = some r) (hpar : r'.parent = r.parent) :
    ∀ m, parentOf (setNode s n r') m = parentOf s m := by
  intro m
  unfold parentOf setNode
  by_cases hm : m = n
  · subst hm; simp [hn, hpar]
  · simp [hm]

lemma setNode_presence (s : RtState) (n : Nat) (r r' : NodeRec)
    (hn : s.nodes n = some r) :
    ∀ m, ((setNode s n r').nodes m).isSome = (s.nodes m).isSome := by
  intro m
  unfold setNode
  by_cases hm : m = n
  · subst hm; simp [hn]
  · simp [hm]

/-- Common core of the three lifecycle posts: bump the seqnum, replace the
node's record (parent link unchanged), publish the tree update.  Gives the
seqnum increment, the ancestor refresh, pointwise touch monotonicity, and
preservation of well-formedness. -/
lemma postCore_spec (s s2 : RtState) (n : Nat) (r r' : NodeRec)
    (hw : WF s) (hn : s.nodes n = some r) (hpar : r'.parent = r.parent)
    (hs2 : s2 = setNode { s with global_seqno := s.global_seqno + 1 } n r') :
    (publishTree s2 n).global_seqno = s.global_seqno + 1 ∧
    (∀ a, Ancestor s2 a n →
      ∃ o, (publishTree s2 n).obs a = some o ∧ o.touch_seqno = s.global_seqno + 1) ∧
    (∀ m o, s.obs m = some o →
      ∃ o', (publishTree s2 n).obs m = some o' ∧ o.touch_seqno ≤ o'.touch_seqno) ∧
    WF (publishTree s2 n) ∧
    (publishTree s2 n).nodes = s2.nodes ∧
    (publishTree s2 n).next_node_id = s.next_node_id := by
  have hs2_obs : s2.obs = s.obs := by rw [hs2]; rfl
  have hs2_global : s2.global_seqno = s.global_seqno + 1 := by rw [hs2]; rfl
  have hs2_next : s2.next_node_id = s.next_node_id := by rw [hs2]; rfl
  have hs2_pres : ∀ m, (s2.nodes m).isSome = (s.nodes m).isSome := by
    rw [hs2]; exact setNode_presence _ n r r' hn
  have hs2_parent : ∀ m, parentOf s2 m = parentOf s m := by
    rw [hs2]; exact setNode_parentOf _ n r r' hn hpar
  have hs2_touch : ∀ m o, s2.obs m = some o → o.touch_seqno ≤ s2.global_seqno := by
    intro m o hm
    rw [hs2_obs] at hm
    rw [hs2_global]
    exact Nat.le_succ_of_le (hw.touch_le m o hm)
  have hs2_n : s2.nodes n = some r' := by rw [hs2]; simp [setNode]
  have hs2_plt : ∀ m rm p, s2.nodes m = some rm → rm.parent = some p → p < m := by
    intro m rm p hm hp
    have h1 := hs2_parent m
    unfold parentOf at h1
    rw [hm] at h1
    dsimp only at h1
    rw [hp] at h1
    cases hsm : s.nodes m with
    | none => rw [hsm] at h1; simp at h1
    | some rs =>
        rw [hsm] at h1
        dsimp only at h1
        exact hw.parent_lt m rs p hsm h1.symm
  have hs2_preg : ∀ m rm p, s2.nodes m = some rm → rm.parent = some p → (s2.nodes p).isSome := by
    intro m rm p hm hp
    have h1 := hs2_parent m
    unfold parentOf at h1
    rw [hm] at h1
    dsimp only at h1
    rw [hp] at h1
    cases hsm : s.nodes m with
    | none => rw [hsm] at h1; simp at h1
    | some rs =>
        rw [hsm] at h1
        dsimp only at h1
        rw [hs2_pres p]
        exact hw.parent_reg m rs p hsm h1.symm
  have hglobal : (publishTree s2 n).global_seqno = s.global_seqno + 1 := by
    unfold publishTree
    rw [publishWalk_global, hs2_global]
  have hanc : ∀ a, Ancestor s2 a n →
      ∃ o, (publishTree s2 n).obs a = some o ∧ o.touch_seqno = s.global_seqno + 1 := by
    intro a ha
    have hmem : a ∈ chainList s2.nodes (n + 1) (some n) :=
      ancestor_mem_chainList s2 hs2_preg a n ha (n + 1)
        (by rw [hs2_n]; rfl) (Nat.lt_succ_self n) hs2_plt
    obtain ⟨o, ho, ht⟩ := publishWalk_sets_touch (n + 1) s2 (some n) hs2_touch a hmem
    exact ⟨o, ho, by rw [ht, hs2_global]⟩
  have hmono : ∀ m o, s.obs m = some o →
      ∃ o', (publishTree s2 n).obs m = some o' ∧ o.touch_seqno ≤ o'.touch_seqno := by
    intro m o hm
    exact publishWalk_touch_mono (n + 1) s2 (some n) m o hs2_touch (by rw [hs2_obs]; exact hm)
  have hnodes : (publishTree s2 n).nodes = s2.nodes := publishWalk_nodes _ _ _
  have hnext : (publishTree s2 n).next_node_id = s.next_node_id := by
    unfold publishTree
    rw [publishWalk_next, hs2_next]
  refine ⟨hglobal, hanc, hmono, ?_, hnodes, hnext⟩
  refine ⟨?_, ?_, ?_, ?_, ?_, ?_⟩
  · intro m o hm
    exact publishWalk_touch_le (n + 1) s2 (some n) hs2_touch m o hm
  · intro m o hm
    refine publishWalk_touch_pos (n + 1) s2 (some n) ?_ ?_ m o hm
    · rw [hs2_global]; omega
    · intro m' o' hm'
      rw [hs2_obs] at hm'
      exact hw.touch_pos m' o' hm'
  · intro m rm hm
    rw [hnodes] at hm
    by_cases hmn : m = n
    · subst hmn
      obtain ⟨o, ho, _⟩ := hanc m (Ancestor.refl m)
      rw [ho]; rfl
    · have : (s.nodes m).isSome := by rw [← hs2_pres m, hm]; rfl
      cases hsm : s.nodes m with
      | none => rw [hsm] at this; simp at this
      | some rs =>
          have hobs := hw.obs_reg m rs hsm
          refine publishWalk_obs_isSome (n + 1) s2 (some n) m ?_
          rw [hs2_obs]
          exact hobs
  · intro m rm hm
    rw [hnodes] at hm
    rw [hnext]
    have hpres := hs2_pres m
    rw [hm] at hpres
    cases hsm : s.nodes m with
    | none => rw [hsm] at hpres; simp at hpres
    | some rs => exact hw.id_bound m rs hsm
  · intro m rm p hm hp
    rw [hnodes] at hm
    exact hs2_plt m rm p hm hp
  · intro m rm p hm hp
    rw [hnodes] at hm
    have := hs2_preg m rm p hm hp
    rw [hnodes]
    exact this

/-- Specification of `publishTree` after a seqnum bump: starting from any
state whose observables predate the bump, publishing refreshes the mutated
node and all its ancestors to the new seqnum, is pointwise monotone on touch
seqnums, and preserves well-formedness. -/
lemma publishCore_spec (s3 : RtState) (n g : Nat)
    (hg : s3.global_seqno = g + 1)
    (htouch : ∀ m o, s3.obs m = some o → o.touch_seqno ≤ g)
    (hpos : ∀ m o, s3.obs m = some o → 1 ≤ o.touch_seqno)
    (hobs_reg : ∀ m rm, s3.nodes m = some rm → m ≠ n → (s3.obs m).isSome)
    (hid : ∀ m rm, s3.nodes m = some rm → m < s3.next_node_id)
    (hplt : ∀ m rm p, s3.nodes m = some rm → rm.parent = some p → p < m)
    (hpreg : ∀ m rm p, s3.nodes m = some rm → rm.parent = some p → (s3.nodes p).isSome)
    (hn : (s3.nodes n).isSome) :
    (publishTree s3 n).global_seqno = g + 1 ∧
    (∀ a, Ancestor s3 a n →
      ∃ o, (publishTree s3 n).obs a = some o ∧ o.touch_seqno = g + 1) ∧
    (∀ m o, s3.obs m = some o →
      ∃ o', (publishTree s3 n).obs m = some o' ∧ o.touch_seqno ≤ o'.touch_seqno) ∧
    WF (publishTree s3 n) ∧
    (publishTree s3 n).nodes = s3.nodes ∧
    (publishTree s3 n).next_node_id = s3.next_node_id := by
  have htouch' : ∀ m o, s3.obs m = some o → o.touch_seqno ≤ s3.global_seqno := by
    intro m o hm
    rw [hg]
    exact Nat.le_succ_of_le (htouch m o hm)
  have hglobal : (publishTree s3 n).global_seqno = g + 1 := by
    unfold publishTree
    rw [publishWalk_global, hg]
  have hanc : ∀ a, Ancestor s3 a n →
      ∃ o, (publishTree s3 n).obs a = some o ∧ o.touch_seqno = g + 1 := by
    intro a ha
    have hmem : a ∈ chainList s3.nodes (n + 1) (some n) :=
      ancestor_mem_chainList s3 hpreg a n ha (n + 1) hn (Nat.lt_succ_self n) hplt
    obtain ⟨o, ho, ht⟩ := publishWalk_sets_touch (n + 1) s3 (some n) htouch' a hmem
    exact ⟨o, ho, by rw [ht, hg]⟩
  have hmono : ∀ m o, s3.obs m = some o →
      ∃ o', (publishTree s3 n).obs m = some o' ∧ o.touch_seqno ≤ o'.touch_seqno := by
    intro m o hm
    exact publishWalk_touch_mono (n + 1) s3 (some n) m o htouch' hm
  have hnodes : (publishTree s3 n).nodes = s3.nodes := publishWalk_nodes _ _ _
  have hnext : (publishTree s3 n).next_node_id = s3.next_node_id := publishWalk_next _ _ _
  refine ⟨hglobal, hanc, hmono, ⟨?_, ?_, ?_, ?_, ?_, ?_⟩, hnodes, hnext⟩
  · intro m o hm
    exact publishWalk_touch_le (n + 1) s3 (some n) htouch' m o hm
  · intro m o hm
    refine publishWalk_touch_pos (n + 1) s3 (some n) (by omega) hpos m o hm
  · intro m rm hm
    rw [hnodes] at hm
    by_cases hmn : m = n
    · subst hmn
      obtain ⟨o, ho, _⟩ := hanc m (Ancestor.refl m)
      rw [ho]; rfl
    · exact publishWalk_obs_isSome (n + 1) s3 (some n) m (hobs_reg m rm hm hmn)
  · intro m rm hm
    rw [hnodes] at hm
    rw [hnext]
    exact hid m rm hm
  · intro m rm p hm hp
    rw [hnodes] at hm
    exact hplt m rm p hm hp
  · intro m rm p hm hp
    rw [hnodes] at hm
    rw [hnodes]
    exact hpreg m rm p hm hp

/-- The state `Runtime.invoke` has built at the moment it calls
`_publish_tree_update` (everything in the critical section before the
publish). -/
def createdState (s : RtState) (caller : Option Nat) : RtState :=
  let nid := s.next_node_id
  let s0 := { s with next_node_id := nid + 1 }
  let s1 := setNode s0 nid (freshNode caller)
  let s2 :=
    match caller with
    | none => { s1 with roots := s1.roots ++ [nid] }
    | some c =>
        match s1.nodes c with
        | some cr => setNode s1 c { cr with children := cr.children ++ [nid] }
        | none => s1
  { s2 with global_seqno := s2.global_seqno + 1 }

lemma invokeCreate_eq (s : RtState) (caller : Option Nat) :
    invokeCreate s caller = publishTree (createdState s caller) s.next_node_id := rfl

lemma createdState_obs (s : RtState) (caller : Option Nat) :
    (createdState s caller).obs = s.obs := by
  unfold createdState
  cases caller with
  | none => rfl
  | some c =>
      dsimp only
      cases h : (setNode { s with next_node_id := s.next_node_id + 1 }
          s.next_node_id (freshNode (some c))).nodes c <;> rfl

lemma createdState_global (s : RtState) (caller : Option Nat) :
    (createdState s caller).global_seqno = s.global_seqno + 1 := by
  unfold createdState
  cases caller with
  | none => rfl
  | some c =>
      dsimp only
      cases h : (setNode { s with next_node_id := s.next_node_id + 1 }
          s.next_node_id (freshNode (some c))).nodes c <;> rfl

lemma createdState_next (s : RtState) (caller : Option Nat) :
    (createdState s caller).next_node_id = s.next_node_id + 1 := by
  unfold createdState
  cases caller with
  | none => rfl
  | some c =>
      dsimp only
      cases h : (setNode { s with next_node_id := s.next_node_id + 1 }
          s.next_node_id (freshNode (some c))).nodes c <;> rfl

lemma createdState_nodes_other (s : RtState) (caller : Option Nat) (m : Nat)
    (hm : m ≠ s.next_node_id)
    (hcm : ∀ c, caller = some c → m ≠ c) :
    (createdState s caller).nodes m = s.nodes m := by
  unfold createdState
  cases caller with
  | none => simp [setNode, hm]
  | some c =>
      dsimp only
      cases h : (setNode { s with next_node_id := s.next_node_id + 1 }
          s.next_node_id (freshNode (some c))).nodes c with
      | none => simp [setNode, hm]
      | some cr => simp [setNode, hm, hcm c rfl]

lemma createdState_nodes_nid (s : RtState) (caller : Option Nat)
    (hcne : ∀ c, caller = some c → c ≠ s.next_node_id) :
    (createdState s caller).nodes s.next_node_id = some (freshNode caller) := by
  unfold createdState
  cases caller with
  | none => simp [setNode]
  | some c =>
      dsimp only
      cases h : (setNode { s with next_node_id := s.next_node_id + 1 }
          s.next_node_id (freshNode (some c))).nodes c with
      | none => simp [setNode]
      | some cr => simp [setNode, Ne.symm (hcne c rfl)]

lemma createdState_nodes_caller (s : RtState) (c : Nat) (cr : NodeRec)
    (hcr : s.nodes c = some cr) (hcne : c ≠ s.next_node_id) :
    (createdState s (some c)).nodes c
      = some { cr with children := cr.children ++ [s.next_node_id] } := by
  unfold createdState
  dsimp only
  have h : (setNode { s with next_node_id := s.next_node_id + 1 }
      s.next_node_id (freshNode (some c))).nodes c = some cr := by
    simp [setNode, hcne, hcr]
  rw [h]
  simp [setNode]

lemma ancestor_nodes_eq (t u : RtState) (h : t.nodes = u.nodes) :
    ∀ a n, Ancestor t a n → Ancestor u a n := by
  refine ancestor_congr t u ?_
  intro m
  unfold parentOf
  rw [h]

/-- Full specification of the `invoke` critical section: seqnum bump by one,
refresh of the created node and all ancestors, touch monotonicity,
well-formedness preservation, and registration of the fresh node. -/
lemma invokeCreate_spec (s : RtState) (caller : Option Nat) (hw : WF s)
    (hv : ValidMut s (Mutation.create caller)) :
    (invokeCreate s caller).global_seqno = s.global_seqno + 1 ∧
    (∀ a, Ancestor (invokeCreate s caller) a s.next_node_id →
      ∃ o, (invokeCreate s caller).obs a = some o ∧ o.touch_seqno = s.global_seqno + 1) ∧
    (∀ m o, s.obs m = some o →
      ∃ o', (invokeCreate s caller).obs m = some o' ∧ o.touch_seqno ≤ o'.touch_seqno) ∧
    WF (invokeCreate s caller) ∧
    ((invokeCreate s caller).nodes s.next_node_id).isSome ∧
    (invokeCreate s caller).next_node_id = s.next_node_id + 1 := by
  have hvreg : ∀ c, caller = some c → ∃ cr, s.nodes c = some cr := by
    intro c hc
    subst hc
    exact Option.isSome_iff_exists.mp hv
  have hcne : ∀ c, caller = some c → c ≠ s.next_node_id := by
    intro c hc
    obtain ⟨cr, hcr⟩ := hvreg c hc
    have := hw.id_bound c cr hcr
    omega
  have hCsome : ∀ p, (s.nodes p).isSome → ((createdState s caller).nodes p).isSome := by
    intro p hp
    by_cases hpn : p = s.next_node_id
    · subst hpn
      rw [createdState_nodes_nid s caller hcne]
      rfl
    · by_cases hpc : ∃ c, caller = some c ∧ p = c
      · obtain ⟨c, hc, hpc⟩ := hpc
        subst hpc
        obtain ⟨cr, hcr⟩ := hvreg p hc
        rw [hc, createdState_nodes_caller s p cr hcr hpn]
        rfl
      · have hne2 : ∀ c, caller = some c → p ≠ c := fun c hc hpc2 => hpc ⟨c, hc, hpc2⟩
        rw [createdState_nodes_other s caller p hpn hne2]
        exact hp
  have hCback : ∀ m rm, m ≠ s.next_node_id →
      (createdState s caller).nodes m = some rm → (s.nodes m).isSome := by
    intro m rm hmn hm
    by_cases hmc : ∃ c, caller = some c ∧ m = c
    · obtain ⟨c, hc, hmc⟩ := hmc
      subst hmc
      obtain ⟨cr, hcr⟩ := hvreg m hc
      rw [hcr]
      rfl
    · have hne2 : ∀ c, caller = some c → m ≠ c := fun c hc h2 => hmc ⟨c, hc, h2⟩
      rw [createdState_nodes_other s caller m hmn hne2] at hm
      rw [hm]
      rfl
  have hCparent : ∀ m rm, m ≠ s.next_node_id →
      (createdState s caller).nodes m = some rm →
      ∃ rs, s.nodes m = some rs ∧ rs.parent = rm.parent := by
    intro m rm hmn hm
    by_cases hmc : ∃ c, caller = some c ∧ m = c
    · obtain ⟨c, hc, hmc⟩ := hmc
      subst hmc
      obtain ⟨cr, hcr⟩ := hvreg m hc
      rw [hc, createdState_nodes_caller s m cr hcr hmn] at hm
      cases hm
      exact ⟨cr, hcr, rfl⟩
    · have hne2 : ∀ c, caller = some c → m ≠ c := fun c hc h2 => hmc ⟨c, hc, h2⟩
      rw [createdState_nodes_other s caller m hmn hne2] at hm
      exact ⟨rm, hm, rfl⟩
  have hplt : ∀ m rm p, (createdState s caller).nodes m = some rm →
      rm.parent = some p → p < m := by
    intro m rm p hm hp
    by_cases hmn : m = s.next_node_id
    · subst hmn
      rw [createdState_nodes_nid s caller hcne] at hm
      cases hm
      cases hc : caller with
      | none => rw [hc] at hp; simp [freshNode] at hp
      | some c =>
          rw [hc] at hp
          simp [freshNode] at hp
          subst hp
          obtain ⟨cr, hcr⟩ := hvreg c hc
          exact hw.id_bound c cr hcr
    · obtain ⟨rs, hrs, hpar⟩ := hCparent m rm hmn hm
      exact hw.parent_lt m rs p hrs (by rw [hpar]; exact hp)
  have hpreg : ∀ m rm p, (createdState s caller).nodes m = some rm →
      rm.parent = some p → ((createdState s caller).nodes p).isSome := by
    intro m rm p hm hp
    by_cases hmn : m = s.next_node_id
    · subst hmn
      rw [createdState_nodes_nid s caller hcne] at hm
      cases hm
      cases hc : caller with
      | none => rw [hc] at hp; simp [freshNode] at hp
      | some c =>
          rw [hc] at hp
          simp [freshNode] at hp
          subst hp
          obtain ⟨cr, hcr⟩ := hvreg c hc
          exact hc ▸ hCsome c (by rw [hcr]; rfl)
    · obtain ⟨rs, hrs, hpar⟩ := hCparent m rm hmn hm
      have := hw.parent_reg m rs p hrs (by rw [hpar]; exact hp)
      exact hCsome p this
  have hobs_reg : ∀ m rm, (createdState s caller).nodes m = some rm →
      m ≠ s.next_node_id → ((createdState s caller).obs m).isSome := by
    intro m rm hm hmn
    rw [createdState_obs]
    have hsm := hCback m rm hmn hm
    cases hsm2 : s.nodes m with
    | none => rw [hsm2] at hsm; simp at hsm
    | some rs => exact hw.obs_reg m rs hsm2
  have hid : ∀ m rm, (createdState s caller).nodes m = some rm →
      m < (createdState s caller).next_node_id := by
    intro m rm hm
    rw [createdState_next]
    by_cases hmn : m = s.next_node_id
    · omega
    · have hsm := hCback m rm hmn hm
      cases hsm2 : s.nodes m with
      | none => rw [hsm2] at hsm; simp at hsm
      | some rs => have := hw.id_bound m rs hsm2; omega
  have hn : ((createdState s caller).nodes s.next_node_id).isSome := by
    rw [createdState_nodes_nid s caller hcne]
    rfl
  obtain ⟨h1, h2, h3, h4, h5, h6⟩ :=
    publishCore_spec (createdState s caller) s.next_node_id s.global_seqno
      (createdState_global s caller)
      (by
        intro m o hm
        rw [createdState_obs] at hm
        exact hw.touch_le m o hm)
      (by
        intro m o hm
        rw [createdState_obs] at hm
        exact hw.touch_pos m o hm)
      hobs_reg hid hplt hpreg hn
  rw [invokeCreate_eq]
  refine ⟨h1, ?_, ?_, h4, ?_, ?_⟩
  · intro a ha
    refine h2 a ?_
    exact ancestor_nodes_eq _ _ h5 a s.next_node_id ha
  · intro m o hm
    refine h3 m o ?_
    rw [createdState_obs]
    exact hm
  · rw [h5]
    exact hn
  · rw [h6, createdState_next]

lemma setNode_WF (t : RtState) (n : Nat) (r r' : NodeRec) (hn : t.nodes n = some r)
    (hpar : r'.parent = r.parent) (hw : WF t) : WF (setNode t n r') := by
  have hpres := setNode_presence t n r r' hn
  have hpmap := setNode_parentOf t n r r' hn hpar
  have hback : ∀ m rm, (setNode t n r').nodes m = some rm → (t.nodes m).isSome := by
    intro m rm hm
    rw [← hpres m, hm]
    rfl
  refine ⟨?_, ?_, ?_, ?_, ?_, ?_⟩
  · intro m o hm
    exact hw.touch_le m o hm
  · intro m o hm
    exact hw.touch_pos m o hm
  · intro m rm hm
    have := hback m rm hm
    cases hm2 : t.nodes m with
    | none => rw [hm2] at this; simp at this
    | some rs => exact hw.obs_reg m rs hm2
  · intro m rm hm
    have := hback m rm hm
    cases hm2 : t.nodes m with
    | none => rw [hm2] at this; simp at this
    | some rs => exact hw.id_bound m rs hm2
  · intro m rm p hm hp
    have h1 := hpmap m
    unfold parentOf at h1
    rw [hm] at h1
    dsimp only at h1
    rw [hp] at h1
    cases hm2 : t.nodes m with
    | none => rw [hm2] at h1; simp at h1
    | some rs =>
        rw [hm2] at h1
        dsimp only at h1
        exact hw.parent_lt m rs p hm2 h1.symm
  · intro m rm p hm hp
    have h1 := hpmap m
    unfold parentOf at h1
    rw [hm] at h1
    dsimp only at h1
    rw [hp] at h1
    cases hm2 : t.nodes m with
    | none => rw [hm2] at h1; simp at h1
    | some rs =>
        rw [hm2] at h1
        dsimp only at h1
        rw [hpres p]
        exact hw.parent_reg m rs p hm2 h1.symm

lemma postStatusUpdate_spec (s : RtState) (n : Nat) (st : NodeState) (r : NodeRec)
    (hw : WF s) (hn : s.nodes n = some r) :
    (postStatusUpdate s n st).global_seqno = s.global_seqno + 1 ∧
    (∀ a, Ancestor (postStatusUpdate s n st) a n →
      ∃ o, (postStatusUpdate s n st).obs a = some o ∧ o.touch_seqno = s.global_seqno + 1) ∧
    (∀ m o, s.obs m = some o →
      ∃ o', (postStatusUpdate s n st).obs m = some o' ∧ o.touch_seqno ≤ o'.touch_seqno) ∧
    WF (postStatusUpdate s n st) ∧
    (postStatusUpdate s n st).nodes n = some { r with state := st } ∧
    (postStatusUpdate s n st).next_node_id = s.next_node_id := by
  have heq : postStatusUpdate s n st
      = publishTree (setNode { s with global_seqno := s.global_seqno + 1 } n
          { r with state := st }) n := by
    unfold postStatusUpdate
    rw [hn]
  obtain ⟨h1, h2, h3, h4, h5, h6⟩ :=
    postCore_spec s (setNode { s with global_seqno := s.global_seqno + 1 } n
      { r with state := st }) n r { r with state := st } hw hn rfl rfl
  rw [heq]
  refine ⟨h1, ?_, h3, h4, ?_, h6⟩
  · intro a ha
    exact h2 a (ancestor_nodes_eq _ _ h5 a n ha)
  · rw [h5]
    simp [setNode]

lemma postSuccess_spec (s : RtState) (n : Nat) (out : Val) (r : NodeRec)
    (hw : WF s) (hn : s.nodes n = some r) :
    (postSuccess s n out).global_seqno = s.global_seqno + 1 ∧
    (∀ a, Ancestor (postSuccess s n out) a n →
      ∃ o, (postSuccess s n out).obs a = some o ∧ o.touch_seqno = s.global_seqno + 1) ∧
    (∀ m o, s.obs m = some o →
      ∃ o', (postSuccess s n out).obs m = some o' ∧ o.touch_seqno ≤ o'.touch_seqno) ∧
    WF (postSuccess s n out) ∧
    (postSuccess s n out).nodes n
      = some { r with outputs := some out, state := NodeState.Success, done := true } ∧
    (postSuccess s n out).next_node_id = s.next_node_id := by
  obtain ⟨h1, h2, h3, h4, h5, h6⟩ :=
    postCore_spec s (setNode { s with global_seqno := s.global_seqno + 1 } n
      { r with outputs := some out, state := NodeState.Success }) n r
      { r with outputs := some out, state := NodeState.Success } hw hn rfl rfl
  have ht : (publishTree (setNode { s with global_seqno := s.global_seqno + 1 } n
      { r with outputs := some out, state := NodeState.Success }) n).nodes n
      = some { r with outputs := some out, state := NodeState.Success } := by
    rw [h5]
    simp [setNode]
  have heq : postSuccess s n out
      = setNode (publishTree (setNode { s with global_seqno := s.global_seqno + 1 } n
          { r with outputs := some out, state := NodeState.Success }) n) n
          { r with outputs := some out, state := NodeState.Success, done := true } := by
    unfold postSuccess
    rw [hn]
    dsimp only
    rw [ht]
  rw [heq]
  refine ⟨h1, ?_, ?_, ?_, ?_, h6⟩
  · intro a ha
    have ha2 := ancestor_congr _ _
      (setNode_parentOf _ n _
        { r with outputs := some out, state := NodeState.Success, done := true } ht rfl)
      a n ha
    obtain ⟨o, ho, hto⟩ := h2 a (ancestor_nodes_eq _ _ h5 a n ha2)
    exact ⟨o, ho, hto⟩
  · intro m o hm
    obtain ⟨o', ho', hle⟩ := h3 m o hm
    exact ⟨o', ho', hle⟩
  · exact setNode_WF _ n _ _ ht rfl h4
  · simp [setNode]

lemma postException_spec (s : RtState) (n : Nat) (e : Exc) (r : NodeRec)
    (hw : WF s) (hn : s.nodes n = some r) :
    (postException s n e).global_seqno = s.global_seqno + 1 ∧
    (∀ a, Ancestor (postException s n e) a n →
      ∃ o, (postException s n e).obs a = some o ∧ o.touch_seqno = s.global_seqno + 1) ∧
    (∀ m o, s.obs m = some o →
      ∃ o', (postException s n e).obs m = some o' ∧ o.touch_seqno ≤ o'.touch_seqno) ∧
    WF (postException s n e) ∧
    (postException s n e).nodes n
      = some { r with exc := some e, state := NodeState.Error, done := true } ∧
    (postException s n e).next_node_id = s.next_node_id := by
  obtain ⟨h1, h2, h3, h4, h5, h6⟩ :=
    postCore_spec s (setNode { s with global_seqno := s.global_seqno + 1 } n
      { r with exc := some e, state := NodeState.Error }) n r
      { r with exc := some e, state := NodeState.Error } hw hn rfl rfl
  have ht : (publishTree (setNode { s with global_seqno := s.global_seqno + 1 } n
      { r with exc := some e, state := NodeState.Error }) n).nodes n
      = some { r with exc := some e, state := NodeState.Error } := by
    rw [h5]
    simp [setNode]
  have heq : postException s n e
      = setNode (publishTree (setNode { s with global_seqno := s.global_seqno + 1 } n
          { r with exc := some e, state := NodeState.Error }) n) n
          { r with exc := some e, state := NodeState.Error, done := true } := by
    unfold postException
    rw [hn]
    dsimp only
    rw [ht]
  rw [heq]
  refine ⟨h1, ?_, ?_, ?_, ?_, h6⟩
  · intro a ha
    have ha2 := ancestor_congr _ _
      (setNode_parentOf _ n _
        { r with exc := some e, state := NodeState.Error, done := true } ht rfl)
      a n ha
    obtain ⟨o, ho, hto⟩ := h2 a (ancestor_nodes_eq _ _ h5 a n ha2)
    exact ⟨o, ho, hto⟩
  · intro m o hm
    obtain ⟨o', ho', hle⟩ := h3 m o hm
    exact ⟨o', ho', hle⟩
  · exact setNode_WF _ n _ _ ht rfl h4
  · simp [setNode]

lemma applyMutation_spec (s : RtState) (mu : Mutation) (hw : WF s) (hv : ValidMut s mu) :
    (applyMutation mu s).global_seqno = s.global_seqno + 1 ∧
    (∀ a, Ancestor (applyMutation mu s) a (mu.target s) →
      ∃ o, (applyMutation mu s).obs a = some o ∧ o.touch_seqno = s.global_seqno + 1) ∧
    (∀ m o, s.obs m = some o →
      ∃ o', (applyMutation mu s).obs m = some o' ∧ o.touch_seqno ≤ o'.touch_seqno) ∧
    WF (applyMutation mu s) := by
  cases mu with
  | create caller =>
      obtain ⟨h1, h2, h3, h4, _, _⟩ := invokeCreate_spec s caller hw hv
      exact ⟨h1, h2, h3, h4⟩
  | postStatus n st =>
      obtain ⟨r, hn⟩ := Option.isSome_iff_exists.mp hv
      obtain ⟨h1, h2, h3, h4, _, _⟩ := postStatusUpdate_spec s n st r hw hn
      exact ⟨h1, h2, h3, h4⟩
  | postSuccess n out =>
      obtain ⟨r, hn⟩ := Option.isSome_iff_exists.mp hv
      obtain ⟨h1, h2, h3, h4, _, _⟩ := postSuccess_spec s n out r hw hn
      exact ⟨h1, h2, h3, h4⟩
  | postException n e =>
      obtain ⟨r, hn⟩ := Option.isSome_iff_exists.mp hv
      obtain ⟨h1, h2, h3, h4, _, _⟩ := postException_spec s n e r hw hn
      exact ⟨h1, h2, h3, h4⟩

lemma WF_initState : WF initState := by
  refine ⟨?_, ?_, ?_, ?_, ?_, ?_⟩ <;> intro m <;> intros <;> simp_all [initState]

lemma reachable_WF {s : RtState} (hr : Reachable s) : WF s := by
  induction hr with
  | init => exact WF_initState
  | step mu _ hv ih => exact (applyMutation_spec _ mu ih hv).2.2.2

/-- C1: every runtime mutation (node creation via `Runtime.invoke`,
`post_status_update`, `post_success`, `post_exception`) increments the global
seqnum by exactly one and sets the `touch_seqno` of the mutated node's
observable and of every ancestor's observable to the new global seqnum;
consequently every observable's `touch_seqno` is non-decreasing across the
mutation and the global seqnum strictly increases with every state change.
(The runtime mutex serializes these critical sections; the state machine
steps are exactly the mutex-protected blocks of `runtime.py`.) -/
theorem mutation_bumps_seqnum_and_refreshes_ancestors
    (s : RtState) (mu : Mutation) (hr : Reachable s) (hv : ValidMut s mu) :
    (applyMutation mu s).global_seqno = s.global_seqno + 1 ∧
    (∀ a, Ancestor (applyMutation mu s) a (mu.target s) →
      ∃ o, (applyMutation mu s).obs a = some o ∧
        o.touch_seqno = (applyMutation mu s).global_seqno) ∧
    (∀ m o, s.obs m = some o →
      ∃ o', (applyMutation mu s).obs m = some o' ∧ o.touch_seqno ≤ o'.touch_seqno) := by
  obtain ⟨h1, h2, h3, _⟩ := applyMutation_spec s mu (reachable_WF hr) hv
  refine ⟨h1, ?_, h3⟩
  intro a ha
  obtain ⟨o, ho, ht⟩ := h2 a ha
  exact ⟨o, ho, by rw [ht, h1]⟩

/-- Witness for C1 at a concrete input: creating the first root node in a
fresh runtime. -/
theorem mutation_bumps_seqnum_and_refreshes_ancestors_witness :
    (applyMutation (Mutation.create none) initState).global_seqno
        = initState.global_seqno + 1 ∧
    (∀ a, Ancestor (applyMutation (Mutation.create none) initState) a
        ((Mutation.create none).target initState) →
      ∃ o, (applyMutation (Mutation.create none) initState).obs a = some o ∧
        o.touch_seqno = (applyMutation (Mutation.create none) initState).global_seqno) ∧
    (∀ m o, initState.obs m = some o →
      ∃ o', (applyMutation (Mutation.create none) initState).obs m = some o' ∧
        o.touch_seqno ≤ o'.touch_seqno) :=
  mutation_bumps_seqnum_and_refreshes_ancestors initState (Mutation.create none)
    Reachable.init trivial

/-- C2: for a registered node, `Runtime.watch` returns the node's current
`NodeView` exactly when the observable's `touch_seqno` is strictly greater
than `as_of_seq` (and blocks otherwise); with `as_of_seq = 0` it returns
immediately at any time after the node's creation, because creation
publishes the node's observable with a `touch_seqno` of at least 1. -/
theorem watch_returns_iff_touch_seqno_newer
    (s : RtState) (n : Nat) (r : NodeRec) (hr : Reachable s) (hn : s.nodes n = some r) :
    ∃ o, s.obs n = some o ∧ 1 ≤ o.touch_seqno ∧
      (∀ as_of_seq, watchNow s n as_of_seq
        = if as_of_seq < o.touch_seqno then some o.view else none) ∧
      watchNow s n 0 = some o.view := by
  have hw := reachable_WF hr
  have hobs := hw.obs_reg n r hn
  cases ho : s.obs n with
  | none => rw [ho] at hobs; simp at hobs
  | some o =>
      have hpos := hw.touch_pos n o ho
      refine ⟨o, rfl, hpos, ?_, ?_⟩
      · intro a
        unfold watchNow
        rw [ho]
      · unfold watchNow
        rw [ho]
        dsimp only
        rw [if_pos (by omega)]

/-- Witness for C2: the first created node in a fresh runtime, watched with
`as_of_seq = 0`. -/
theorem watch_returns_iff_touch_seqno_newer_witness :
    ∃ o, (applyMutation (Mutation.create none) initState).obs 0 = some o ∧
      1 ≤ o.touch_seqno ∧
      (∀ as_of_seq, watchNow (applyMutation (Mutation.create none) initState) 0 as_of_seq
        = if as_of_seq < o.touch_seqno then some o.view else none) ∧
      watchNow (applyMutation (Mutation.create none) initState) 0 0 = some o.view :=
  watch_returns_iff_touch_seqno_newer (applyMutation (Mutation.create none) initState)
    0 (freshNode none)
    (Reachable.step (Mutation.create none) Reachable.init trivial) rfl

/-- Modelled from the spec: the terminal posting path for a canceled node.
`core.py` is absent from `src/`; per the spec (§4.3 lifecycle posting and
§4.5 Code Node: "posts it as canceled"), the canceled terminal transition
stores the exception, sets state `Canceled`, bumps the seqnum, publishes the
tree update and signals the done-signal — mirroring `Runtime.post_exception`
with `Canceled` in place of `Error` (`viz/console.py` displays Canceled
nodes carrying their exception). -/
def postCanceled (s : RtState) (n : Nat) (e : Exc) : RtState :=
  match s.nodes n with
  | none => s
  | some r =>
      let s1 := { s with global_seqno := s.global_seqno + 1 }
      let s2 := setNode s1 n { r with exc := some e, state := NodeState.Canceled }
      let s3 := publishTree s2 n
      match s3.nodes n with
      | some r3 => setNode s3 n { r3 with done := true }
      | none => s3

/-- Modelled from the spec: the Code Node worker's completion handling
(`core.py`, absent from `src/`; spec §4.5): on normal return it posts
success with the return value; on exception, if the exception is the
designated Cancellation kind it posts it as canceled, otherwise it posts it
as error via `Runtime.post_exception`. -/
def codeNodeComplete (s : RtState) (n : Nat) (res : Except Exc Val) : RtState :=
  match res with
  | .ok v => postSuccess s n v
  | .error e =>
      if e.kind = ExcKind.Cancellation then postCanceled s n e
      else postException s n e

lemma postCanceled_nodes (s : RtState) (n : Nat) (e : Exc) (r : NodeRec)
    (hn : s.nodes n = some r) :
    (postCanceled s n e).nodes n
      = some { r with exc := some e, state := NodeState.Canceled, done := true } := by
  unfold postCanceled
  rw [hn]
  dsimp only
  have ht : (publishTree (setNode { s with global_seqno := s.global_seqno + 1 } n
      { r with exc := some e, state := NodeState.Canceled }) n).nodes n
      = some { r with exc := some e, state := NodeState.Canceled } := by
    unfold publishTree
    rw [publishWalk_nodes]
    simp [setNode]
  rw [ht]
  simp [setNode]

lemma postExceptionOnly_nodes (s : RtState) (n : Nat) (e : Exc) (r : NodeRec)
    (hn : s.nodes n = some r) :
    (postException s n e).nodes n
      = some { r with exc := some e, state := NodeState.Error, done := true } := by
  unfold postException
  rw [hn]
  dsimp only
  have ht : (publishTree (setNode { s with global_seqno := s.global_seqno + 1 } n
      { r with exc := some e, state := NodeState.Error }) n).nodes n
      = some { r with exc := some e, state := NodeState.Error } := by
    unfold publishTree
    rw [publishWalk_nodes]
    simp [setNode]
  rw [ht]
  simp [setNode]

/-- C5: a Code Node whose callable raises the designated Cancellation error
ends in the terminal state `Canceled` (with the exception stored and the
done-signal set), not `Error`; a callable raising any other exception ends
in `Error`. -/
theorem code_node_cancellation_ends_canceled
    (s : RtState) (n : Nat) (r : NodeRec) (e : Exc) (hn : s.nodes n = some r) :
    (e.kind = ExcKind.Cancellation →
      (codeNodeComplete s n (Except.error e)).nodes n
        = some { r with exc := some e, state := NodeState.Canceled, done := true }) ∧
    (e.kind ≠ ExcKind.Cancellation →
      (codeNodeComplete s n (Except.error e)).nodes n
        = some { r with exc := some e, state := NodeState.Error, done := true }) := by
  constructor
  · intro hk
    unfold codeNodeComplete
    dsimp only
    rw [if_pos hk]
    exact postCanceled_nodes s n e r hn
  · intro hk
    unfold codeNodeComplete
    dsimp only
    rw [if_neg hk]
    exact postExceptionOnly_nodes s n e r hn

/-- Witness for C5: the first created node completing with a Cancellation
exception, and (on the other side) with an ordinary exception. -/
theorem code_node_cancellation_ends_canceled_witness :
    ((Exc.mk ExcKind.Cancellation "canceled").kind = ExcKind.Cancellation →
      (codeNodeComplete (applyMutation (Mutation.create none) initState) 0
          (Except.error (Exc.mk ExcKind.Cancellation "canceled"))).nodes 0
        = some { freshNode none with
                  exc := some (Exc.mk ExcKind.Cancellation "canceled"),
                  state := NodeState.Canceled, done := true }) ∧
    ((Exc.mk ExcKind.Cancellation "canceled").kind ≠ ExcKind.Cancellation →
      (codeNodeComplete (applyMutation (Mutation.create none) initState) 0
          (Except.error (Exc.mk ExcKind.Cancellation "canceled"))).nodes 0
        = some { freshNode none with
                  exc := some (Exc.mk ExcKind.Cancellation "canceled"),
                  state := NodeState.Error, done := true }) :=
  code_node_cancellation_ends_canceled (applyMutation (Mutation.create none) initState)
    0 (freshNode none) (Exc.mk ExcKind.Cancellation "canceled") rfl

/-- C6 as stated is false on the code: `post_status_update` called with the
terminal state `Canceled` leaves the node's done-signal unset.  Concretely:
create a root node in a fresh runtime, then `post_status_update(node,
Canceled)` — the resulting state is terminal but `done` is still `false`. -/
theorem post_status_terminal_leaves_done_unset :
    ((postStatusUpdate (applyMutation (Mutation.create none) initState) 0
        NodeState.Canceled).nodes 0).map NodeRec.state = some NodeState.Canceled ∧
    NodeState.Canceled.isTerminal = true ∧
    ((postStatusUpdate (applyMutation (Mutation.create none) initState) 0
        NodeState.Canceled).nodes 0).map NodeRec.done = some false := by
  refine ⟨?_, rfl, ?_⟩ <;> rfl

/-- C6 (amended): `post_success` and `post_exception` — whose resulting
states `Success` and `Error` are terminal — set the node's done-signal;
`post_status_update` never sets the done-signal, even when called with a
terminal state; and each of the three operations bumps the global seqnum by
one and refreshes the observables of the node and of all its ancestors. -/
theorem lifecycle_posting_operations_spec
    (s : RtState) (n : Nat) (r : NodeRec) (hr : Reachable s) (hn : s.nodes n = some r) :
    (∀ out, (postSuccess s n out).global_seqno = s.global_seqno + 1 ∧
      (postSuccess s n out).nodes n
        = some { r with outputs := some out, state := NodeState.Success, done := true } ∧
      NodeState.Success.isTerminal = true ∧
      (∀ a, Ancestor (postSuccess s n out) a n →
        ∃ o, (postSuccess s n out).obs a = some o ∧
          o.touch_seqno = s.global_seqno + 1)) ∧
    (∀ e, (postException s n e).global_seqno = s.global_seqno + 1 ∧
      (postException s n e).nodes n
        = some { r with exc := some e, state := NodeState.Error, done := true } ∧
      NodeState.Error.isTerminal = true ∧
      (∀ a, Ancestor (postException s n e) a n →
        ∃ o, (postException s n e).obs a = some o ∧
          o.touch_seqno = s.global_seqno + 1)) ∧
    (∀ st, (postStatusUpdate s n st).global_seqno = s.global_seqno + 1 ∧
      (postStatusUpdate s n st).nodes n = some { r with state := st } ∧
      (∀ a, Ancestor (postStatusUpdate s n st) a n →
        ∃ o, (postStatusUpdate s n st).obs a = some o ∧
          o.touch_seqno = s.global_seqno + 1)) := by
  have hw := reachable_WF hr
  refine ⟨?_, ?_, ?_⟩
  · intro out
    obtain ⟨h1, h2, _, _, h5, _⟩ := postSuccess_spec s n out r hw hn
    exact ⟨h1, h5, rfl, h2⟩
  · intro e
    obtain ⟨h1, h2, _, _, h5, _⟩ := postException_spec s n e r hw hn
    exact ⟨h1, h5, rfl, h2⟩
  · intro st
    obtain ⟨h1, h2, _, _, h5, _⟩ := postStatusUpdate_spec s n st r hw hn
    exact ⟨h1, h5, h2⟩

/-- Witness for C6 (amended): the three posts applied to the first created
node of a fresh runtime. -/
theorem lifecycle_posting_operations_spec_witness :
    (∀ out, (postSuccess (applyMutation (Mutation.create none) initState) 0 out).global_seqno
        = (applyMutation (Mutation.create none) initState).global_seqno + 1 ∧
      (postSuccess (applyMutation (Mutation.create none) initState) 0 out).nodes 0
        = some { freshNode none with
                  outputs := some out, state := NodeState.Success, done := true } ∧
      NodeState.Success.isTerminal = true ∧
      (∀ a, Ancestor (postSuccess (applyMutation (Mutation.create none) initState) 0 out) a 0 →
        ∃ o, (postSuccess (applyMutation (Mutation.create none) initState) 0 out).obs a
            = some o ∧
          o.touch_seqno = (applyMutation (Mutation.create none) initState).global_seqno + 1)) ∧
    (∀ e, (postException (applyMutation (Mutation.create none) initState) 0 e).global_seqno
        = (applyMutation (Mutation.create none) initState).global_seqno + 1 ∧
      (postException (applyMutation (Mutation.create none) initState) 0 e).nodes 0
        = some { freshNode none with
                  exc := some e, state := NodeState.Error, done := true } ∧
      NodeState.Error.isTerminal = true ∧
      (∀ a, Ancestor (postException (applyMutation (Mutation.create none) initState) 0 e) a 0 →
        ∃ o, (postException (applyMutation (Mutation.create none) initState) 0 e).obs a
            = some o ∧
          o.touch_seqno = (applyMutation (Mutation.create none) initState).global_seqno + 1)) ∧
    (∀ st, (postStatusUpdate (applyMutation (Mutation.create none) initState) 0 st).global_seqno
        = (applyMutation (Mutation.create none) initState).global_seqno + 1 ∧
      (postStatusUpdate (applyMutation (Mutation.create none) initState) 0 st).nodes 0
        = some { freshNode none with state := st } ∧
      (∀ a, Ancestor (postStatusUpdate (applyMutation (Mutation.create none) initState) 0 st) a 0 →
        ∃ o, (postStatusUpdate (applyMutation (Mutation.create none) initState) 0 st).obs a
            = some o ∧
          o.touch_seqno = (applyMutation (Mutation.create none) initState).global_seqno + 1)) :=
  lifecycle_posting_operations_spec (applyMutation (Mutation.create none) initState)
    0 (freshNode none)
    (Reachable.step (Mutation.create none) Reachable.init trivial) rfl

/-- `SessionScope` enum (`core.py`, as used by `runtime.py`). -/
inductive SessionScope where
  | Self
  | Parent
  | TopLevel
deriving DecidableEq, Repr

/-- A node as seen by `Runtime._build_session_bags`: its id and parent link
(`parent : Optional[Node]` is the `root`/`child` distinction).  Each node
owns exactly one session bag; bags are identified here by their owner's id
(ids are unique, allocated by the runtime's counter). -/
inductive NodeObj where
  | root (id : Nat)
  | child (id : Nat) (parent : NodeObj)

def NodeObj.nid : NodeObj → Nat
  | .root i => i
  | .child i _ => i

def NodeObj.parentObj : NodeObj → Option NodeObj
  | .root _ => none
  | .child _ p => some p

/-- The `while current.parent is not None: current = current.parent` loop of
`Runtime._build_session_bags`. -/
def rootAncestor : NodeObj → NodeObj
  | .root i => .root i
  | .child _ p => rootAncestor p

/-- `Runtime._build_session_bags`: the mapping installed on the node's
`RunContext` (`ctx.object_bags`, `runtime.py:159`): `TopLevel` is the root
ancestor's bag, `Self` the node's own bag, and `Parent` — present exactly
when the node has a parent — the parent's bag.  `none` models an absent
dictionary key. -/
def buildSessionBags (node : NodeObj) : SessionScope → Option Nat := fun scope =>
  match scope with
  | .TopLevel => some (rootAncestor node).nid
  | .Self => some node.nid
  | .Parent => node.parentObj.map NodeObj.nid

/-- Ancestor relation on node objects. -/
inductive NodeAnc : NodeObj → NodeObj → Prop
  | refl (n : NodeObj) : NodeAnc n n
  | step {n p a : NodeObj} : n.parentObj = some p → NodeAnc a p → NodeAnc a n

lemma rootAncestor_anc (n : NodeObj) : NodeAnc (rootAncestor n) n := by
  induction n with
  | root i => exact NodeAnc.refl _
  | child i p ih => exact NodeAnc.step rfl ih

lemma rootAncestor_no_parent (n : NodeObj) : (rootAncestor n).parentObj = none := by
  induction n with
  | root i => rfl
  | child i p ih => exact ih

lemma root_ancestor_unique (n : NodeObj) :
    ∀ r, NodeAnc r n → r.parentObj = none → r = rootAncestor n := by
  induction n with
  | root i =>
      intro r hanc _
      cases hanc with
      | refl => rfl
      | step hp _ => simp [NodeObj.parentObj] at hp
  | child i p ih =>
      intro r hanc hr
      cases hanc with
      | refl => simp [NodeObj.parentObj] at hr
      | step hp hanc2 =>
          simp only [NodeObj.parentObj, Option.some.injEq] at hp
          subst hp
          exact ih r hanc2 hr

/-- C9: the session-bag mapping that `Runtime.invoke` installs on a new
node's `RunContext` satisfies: `Self` is the node's own bag; `TopLevel` is
the bag of the node's unique root ancestor (for a root node the identical
bag object as `Self`); and a `Parent` entry is present if and only if the
node has a parent, in which case it is the parent's own bag. -/
theorem session_bags_scopes_correct (node : NodeObj) :
    buildSessionBags node SessionScope.Self = some node.nid ∧
    (∃ r, NodeAnc r node ∧ r.parentObj = none ∧
      (∀ r', NodeAnc r' node → r'.parentObj = none → r' = r) ∧
      buildSessionBags node SessionScope.TopLevel = some r.nid) ∧
    (node.parentObj = none →
      buildSessionBags node SessionScope.TopLevel
        = buildSessionBags node SessionScope.Self) ∧
    (∀ p, node.parentObj = some p →
      buildSessionBags node SessionScope.Parent = some p.nid) ∧
    (node.parentObj = none → buildSessionBags node SessionScope.Parent = none) := by
  refine ⟨rfl, ⟨rootAncestor node, rootAncestor_anc node, rootAncestor_no_parent node,
    root_ancestor_unique node, rfl⟩, ?_, ?_, ?_⟩
  · intro h
    cases node with
    | root i => rfl
    | child i p => simp [NodeObj.parentObj] at h
  · intro p hp
    cases node with
    | root i => simp [NodeObj.parentObj] at hp
    | child i q =>
        simp only [NodeObj.parentObj, Option.some.injEq] at hp
        subst hp
        rfl
  · intro h
    cases node with
    | root i => rfl
    | child i p => simp [NodeObj.parentObj] at h

/-- Witness for C9: a two-level tree (`child 5` under `root 3`). -/
theorem session_bags_scopes_correct_witness :
    buildSessionBags (NodeObj.child 5 (NodeObj.root 3)) SessionScope.Self
        = some (NodeObj.child 5 (NodeObj.root 3)).nid ∧
    (∃ r, NodeAnc r (NodeObj.child 5 (NodeObj.root 3)) ∧ r.parentObj = none ∧
      (∀ r', NodeAnc r' (NodeObj.child 5 (NodeObj.root 3)) → r'.parentObj = none → r' = r) ∧
      buildSessionBags (NodeObj.child 5 (NodeObj.root 3)) SessionScope.TopLevel
        = some r.nid) ∧
    ((NodeObj.child 5 (NodeObj.root 3)).parentObj = none →
      buildSessionBags (NodeObj.child 5 (NodeObj.root 3)) SessionScope.TopLevel
        = buildSessionBags (NodeObj.child 5 (NodeObj.root 3)) SessionScope.Self) ∧
    (∀ p, (NodeObj.child 5 (NodeObj.root 3)).parentObj = some p →
      buildSessionBags (NodeObj.child 5 (NodeObj.root 3)) SessionScope.Parent
        = some p.nid) ∧
    ((NodeObj.child 5 (NodeObj.root 3)).parentObj = none →
      buildSessionBags (NodeObj.child 5 (NodeObj.root 3)) SessionScope.Parent = none) :=
  session_bags_scopes_correct (NodeObj.child 5 (NodeObj.root 3))

/-- Modelled from the spec: the `TokenUsage` record (`core.py`, absent from
`src/`; spec §3 gives `{input_total, input_regular, input_cache_read,
output_total, output_text?, output_reasoning?}`).  Counters start zeroed;
the optional output splits start absent, and `(x or 0)` in
`_accumulate_usage` treats absent as zero.  Python ints are embedded as
`Int` (the regular-input delta can be negative). -/
structure TokenUsage where
  input_tokens_total : Int
  input_tokens_regular : Int
  input_tokens_cache_read : Int
  output_tokens_total : Int
  output_tokens_reasoning : Option Int
  output_tokens_text : Option Int
deriving DecidableEq, Repr

/-- The zeroed `TokenUsage()` installed by `GeminiAgentNode.__init__`. -/
def TokenUsage.zero : TokenUsage :=
  { input_tokens_total := 0, input_tokens_regular := 0, input_tokens_cache_read := 0,
    output_tokens_total := 0, output_tokens_reasoning := none, output_tokens_text := none }

/-- One Gemini usage report (`GenerateContentResponseUsageMetadata` as read
by `_accumulate_usage`): token counts are non-negative API integers;
`Option` models SDK fields that may be `None`.  `prompt_token_count` is
asserted non-None by the code. -/
structure UsageMeta where
  prompt_token_count : Nat
  cached_content_token_count : Option Nat
  tool_use_prompt_token_count : Option Nat
  thoughts_token_count : Option Nat
  candidates_token_count : Option Nat
deriving DecidableEq, Repr

/-- `GeminiAgentNode._accumulate_usage` (gemini.py lines 333-349). -/
def accumulate_usage (u : TokenUsage) (m : UsageMeta) : TokenUsage :=
  let cache_read : Int := (m.cached_content_token_count.getD 0 : Nat)
  let prompt_tokens : Int := m.prompt_token_count
  let tool_prompt_tokens : Int := (m.tool_use_prompt_token_count.getD 0 : Nat)
  let reasoning_tokens : Int := (m.thoughts_token_count.getD 0 : Nat)
  let text_tokens : Int := (m.candidates_token_count.getD 0 : Nat)
  { input_tokens_cache_read := u.input_tokens_cache_read + cache_read,
    input_tokens_regular :=
      u.input_tokens_regular + ((prompt_tokens + tool_prompt_tokens) - cache_read),
    input_tokens_total := u.input_tokens_total + (prompt_tokens + tool_prompt_tokens),
    output_tokens_reasoning := some (u.output_tokens_reasoning.getD 0 + reasoning_tokens),
    output_tokens_text := some (u.output_tokens_text.getD 0 + text_tokens),
    output_tokens_total := u.output_tokens_total + (reasoning_tokens + text_tokens) }

/-- Usage accumulated over a run of the agent loop, starting zeroed. -/
def accumulateAll (ms : List UsageMeta) : TokenUsage :=
  ms.foldl accumulate_usage TokenUsage.zero

/-- The totals equalities of C10. -/
def UsageInv (u : TokenUsage) : Prop :=
  u.input_tokens_total = u.input_tokens_regular + u.input_tokens_cache_read ∧
  u.output_tokens_total = u.output_tokens_reasoning.getD 0 + u.output_tokens_text.getD 0

lemma usageInv_zero : UsageInv TokenUsage.zero := by
  constructor <;> rfl

lemma usageInv_step (u : TokenUsage) (m : UsageMeta) (h : UsageInv u) :
    UsageInv (accumulate_usage u m) := by
  obtain ⟨h1, h2⟩ := h
  constructor <;> simp [accumulate_usage] <;> omega

lemma usageInv_fold : ∀ (ms : List UsageMeta) (u : TokenUsage),
    UsageInv u → UsageInv (List.foldl accumulate_usage u ms) := by
  intro ms
  induction ms with
  | nil => intro u h; exact h
  | cons m ms ih => intro u h; exact ih _ (usageInv_step u m h)

/-- C10 counterexample: the claim's monotonicity fails as stated.  A usage
report whose `cached_content_token_count` (5) exceeds `prompt_token_count`
plus `tool_use_prompt_token_count` (1) makes `input_tokens_regular`
decrease (0 to -4), because `_accumulate_usage` adds
`(prompt + tool_prompt) - cache_read` to it. -/
theorem usage_regular_counter_can_decrease :
    (accumulate_usage TokenUsage.zero
        (UsageMeta.mk 1 (some 5) none none none)).input_tokens_regular
      < TokenUsage.zero.input_tokens_regular := by decide

/-- C10 (amended): starting zeroed, after every accumulation the equalities
`input_tokens_total = input_tokens_regular + input_tokens_cache_read` and
`output_tokens_total = output_tokens_reasoning + output_tokens_text` hold
unconditionally; and every counter is non-decreasing across an
accumulation provided the report's cached token count does not exceed its
prompt plus tool-use prompt token count. -/
theorem token_usage_totals_and_monotonicity (ms : List UsageMeta) (m : UsageMeta) :
    UsageInv (accumulateAll ms) ∧
    UsageInv (accumulate_usage (accumulateAll ms) m) ∧
    ((m.cached_content_token_count.getD 0 : Nat)
        ≤ m.prompt_token_count + m.tool_use_prompt_token_count.getD 0 →
      (accumulateAll ms).input_tokens_total
          ≤ (accumulate_usage (accumulateAll ms) m).input_tokens_total ∧
      (accumulateAll ms).input_tokens_regular
          ≤ (accumulate_usage (accumulateAll ms) m).input_tokens_regular ∧
      (accumulateAll ms).input_tokens_cache_read
          ≤ (accumulate_usage (accumulateAll ms) m).input_tokens_cache_read ∧
      (accumulateAll ms).output_tokens_total
          ≤ (accumulate_usage (accumulateAll ms) m).output_tokens_total ∧
      (accumulateAll ms).output_tokens_reasoning.getD 0
          ≤ (accumulate_usage (accumulateAll ms) m).output_tokens_reasoning.getD 0 ∧
      (accumulateAll ms).output_tokens_text.getD 0
          ≤ (accumulate_usage (accumulateAll ms) m).output_tokens_text.getD 0) := by
  have hinv : UsageInv (accumulateAll ms) := usageInv_fold ms TokenUsage.zero usageInv_zero
  refine ⟨hinv, usageInv_step _ m hinv, ?_⟩
  intro hc
  refine ⟨?_, ?_, ?_, ?_, ?_, ?_⟩ <;> simp [accumulate_usage] <;> omega

/-- Witness for C10 (amended): one well-formed report accumulated onto the
zeroed usage. -/
theorem token_usage_totals_and_monotonicity_witness :
    UsageInv (accumulateAll []) ∧
    UsageInv (accumulate_usage (accumulateAll [])
      (UsageMeta.mk 3 (some 1) (some 2) (some 4) (some 5))) ∧
    (((UsageMeta.mk 3 (some 1) (some 2) (some 4) (some 5)).cached_content_token_count.getD 0 : Nat)
        ≤ (UsageMeta.mk 3 (some 1) (some 2) (some 4) (some 5)).prompt_token_count
          + (UsageMeta.mk 3 (some 1) (some 2) (some 4) (some 5)).tool_use_prompt_token_count.getD 0 →
      (accumulateAll []).input_tokens_total
          ≤ (accumulate_usage (accumulateAll [])
              (UsageMeta.mk 3 (some 1) (some 2) (some 4) (some 5))).input_tokens_total ∧
      (accumulateAll []).input_tokens_regular
          ≤ (accumulate_usage (accumulateAll [])
              (UsageMeta.mk 3 (some 1) (some 2) (some 4) (some 5))).input_tokens_regular ∧
      (accumulateAll []).input_tokens_cache_read
          ≤ (accumulate_usage (accumulateAll [])
              (UsageMeta.mk 3 (some 1) (some 2) (some 4) (some 5))).input_tokens_cache_read ∧
      (accumulateAll []).output_tokens_total
          ≤ (accumulate_usage (accumulateAll [])
              (UsageMeta.mk 3 (some 1) (some 2) (some 4) (some 5))).output_tokens_total ∧
      (accumulateAll []).output_tokens_reasoning.getD 0
          ≤ (accumulate_usage (accumulateAll [])
              (UsageMeta.mk 3 (some 1) (some 2) (some 4) (some 5))).output_tokens_reasoning.getD 0 ∧
      (accumulateAll []).output_tokens_text.getD 0
          ≤ (accumulate_usage (accumulateAll [])
              (UsageMeta.mk 3 (some 1) (some 2) (some 4) (some 5))).output_tokens_text.getD 0) :=
  token_usage_totals_and_monotonicity [] (UsageMeta.mk 3 (some 1) (some 2) (some 4) (some 5))

/-- Transcript parts (the framework transcript model of `core.py`, with the
fields `gemini.py` populates).  Argument mappings are abstracted as strings. -/
inductive Part where
  | userText (text : String)
  | modelText (text : String)
  | thinkingBlock (content : String) (signature : String)
  | toolUse (tool_use_id : String) (tool_name : String) (args : String)
  | toolResult (tool_use_id : String) (tool_name : String) (outputs : String) (is_error : Bool)
deriving DecidableEq, Repr

/-- Modelled from the spec: `AgentNode.stringify_exception` (`core.py`,
absent from `src/`) renders an exception as the tool-error text returned to
the model; only the fact that some string is produced matters here. -/
def stringify_exception (e : Exc) : String := e.msg

/-- What one tool-use request of a turn comes to in
`GeminiAgentNode.run`: the dispatch (`invoke_tool_function`) raised
(unknown tool or invalid arguments), or the spawned child's `result()`
returned (already stringified by the loop), or `result()` re-raised the
child's exception. -/
inductive ToolOutcome where
  | spawnError (e : Exc)
  | ok (out : String)
  | raised (e : Exc)
deriving DecidableEq, Repr

/-- One tool-use request of a model turn: `cid` is the tool_use_id
(`fc.id or self._new_tool_use_id(name)`), plus the tool name, arguments and
the eventual outcome of the spawned child. -/
structure ToolCall where
  cid : String
  name : String
  args : String
  outcome : ToolOutcome
deriving DecidableEq, Repr

/-- Modelled from the spec: whether `except AgentException` catches this
child exception.  The exception class hierarchy lives in `core.py` (absent
from `src/`); per spec §4.7 the Agent-Abort error and the Cancellation
error are distinct kinds, so the catch matches exactly the Agent-Abort
kind. -/
def ToolCall.isAgentAbort (c : ToolCall) : Bool :=
  match c.outcome with
  | .raised e => e.kind = ExcKind.AgentAbort
  | _ => false

/-- The `ToolUsePart` appended before spawning the child. -/
def mkToolUsePart (c : ToolCall) : Part :=
  Part.toolUse c.cid c.name c.args

/-- The `ToolResultPart` the await phase appends for one call: tool-error
text for a failed dispatch or an ordinary child exception, plain output on
success, and nothing for the Agent-Abort case (the loop records the pending
abort and `continue`s). -/
def resultPartFor (c : ToolCall) : Option Part :=
  match c.outcome with
  | .spawnError e => some (Part.toolResult c.cid c.name (stringify_exception e) true)
  | .ok out => some (Part.toolResult c.cid c.name out false)
  | .raised e =>
      if e.kind = ExcKind.AgentAbort then none
      else some (Part.toolResult c.cid c.name (stringify_exception e) true)

/-- The `pending_agent_ex` variable after the await phase: the last
Agent-Abort exception raised by a child of the batch (later ones overwrite
earlier ones), if any. -/
def pendingAbort (calls : List ToolCall) : Option Exc :=
  calls.foldl (fun acc c =>
    match c.outcome with
    | .raised e => if e.kind = ExcKind.AgentAbort then some e else acc
    | _ => acc) none

/-- Events of one turn of the loop, in program order: transcript appends,
child spawns (`invoke_tool_function`), and child awaits (`child.result()`). -/
inductive TurnEvent where
  | transcriptAppend (p : Part)
  | spawnChild (cid : String)
  | awaitChild (cid : String)
deriving DecidableEq, Repr

/-- The spawn phase: for each requested call in request order, append its
`ToolUsePart` to the transcript and then spawn the child (the spawn does not
block on completion). -/
def spawnPhaseEvents (calls : List ToolCall) : List TurnEvent :=
  calls.flatMap (fun c =>
    [TurnEvent.transcriptAppend (mkToolUsePart c), TurnEvent.spawnChild c.cid])

/-- The await phase: for each call in request order, await the child
(unless the dispatch already failed) and append its result part (except for
the Agent-Abort case). -/
def awaitPhaseEvents (calls : List ToolCall) : List TurnEvent :=
  calls.flatMap (fun c =>
    (match c.outcome with
      | .spawnError _ => []
      | _ => [TurnEvent.awaitChild c.cid])
    ++ (resultPartFor c).toList.map TurnEvent.transcriptAppend)

/-- All events of one tool-calling turn, in program order. -/
def turnEvents (calls : List ToolCall) : List TurnEvent :=
  spawnPhaseEvents calls ++ awaitPhaseEvents calls

/-- The part appended by an event, if any. -/
def eventPart : TurnEvent → Option Part
  | .transcriptAppend p => some p
  | _ => none

/-- The transcript extension contributed by one tool-calling turn: all
`ToolUsePart`s in request order, then the `ToolResultPart`s in request
order. -/
def turnTranscriptExt (calls : List ToolCall) : List Part :=
  calls.map mkToolUsePart ++ calls.filterMap resultPartFor

/-- One model response in the loop: thought signatures, the extracted text
(used only when there are no function calls), and the requested tool calls
together with their outcomes. -/
structure ModelTurn where
  sigs : List String
  text : String
  calls : List ToolCall
deriving DecidableEq, Repr

/-- A terminal of `GeminiAgentNode.run`: success posted with the final
text, the pending Agent-Abort exception posted as the node's terminal
exception, or an exception escaping `run` (to be posted by the worker
wrapper). -/
inductive AgentTerminal where
  | success (text : String) (transcript : List Part)
  | aborted (e : Exc) (transcript : List Part)
  | raised (e : Exc) (transcript : List Part)
deriving DecidableEq, Repr

/-- The framework transcript at a terminal. -/
def AgentTerminal.transcript : AgentTerminal → List Part
  | .success _ ts => ts
  | .aborted _ ts => ts
  | .raised _ ts => ts

/-- The terminal exception, if any. -/
def AgentTerminal.exc : AgentTerminal → Option Exc
  | .success _ _ => none
  | .aborted e _ => some e
  | .raised e _ => some e

/-- One cycle of `GeminiAgentNode.run` (gemini.py lines 220-329): record
thought signatures; if the model made no function calls, append the final
`ModelTextPart` and post success; otherwise run the spawn and await phases,
and either post the pending Agent-Abort exception and return, or append the
aggregated tool message and continue with the grown transcript. -/
def runStep (ts : List Part) (t : ModelTurn) : Sum (List Part) AgentTerminal :=
  let ts1 := ts ++ t.sigs.map (fun sg => Part.thinkingBlock "" sg)
  if t.calls.isEmpty then
    Sum.inr (AgentTerminal.success t.text (ts1 ++ [Part.modelText t.text]))
  else
    let ts3 := ts1 ++ turnTranscriptExt t.calls
    match pendingAbort t.calls with
    | some e => Sum.inr (AgentTerminal.aborted e ts3)
    | none => Sum.inl ts3

/-- Max tool call + response cycles before giving up (gemini.py line 67). -/
def MAX_STEPS : Nat := 64

/-- The bounded loop of `GeminiAgentNode.run`: at most `MAX_STEPS` model
calls; running off the end raises `RuntimeError` (not a dedicated
exhaustion error class). -/
def runLoopAux (turns : Nat → ModelTurn) : Nat → Nat → List Part → AgentTerminal
  | 0, _, ts =>
      AgentTerminal.raised
        (Exc.mk ExcKind.RuntimeErr
          "Gemini tool loop exceeded MAX_STEPS without producing a final answer.") ts
  | fuel + 1, i, ts =>
      match runStep ts (turns i) with
      | Sum.inr r => r
      | Sum.inl ts2 => runLoopAux turns fuel (i + 1) ts2

/-- `GeminiAgentNode.run`: the transcript starts with the substituted user
text; `turns i` is the i-th model response. -/
def runAgent (userText : String) (turns : Nat → ModelTurn) : AgentTerminal :=
  runLoopAux turns MAX_STEPS 0 [Part.userText userText]

lemma runLoopAux_congr (turns turns' : Nat → ModelTurn) :
    ∀ (fuel i : Nat) (ts : List Part),
    (∀ j, i ≤ j → j < i + fuel → turns j = turns' j) →
    runLoopAux turns fuel i ts = runLoopAux turns' fuel i ts := by
  intro fuel
  induction fuel with
  | zero => intro i ts _; rfl
  | succ f ih =>
      intro i ts h
      unfold runLoopAux
      rw [h i (le_refl i) (by omega)]
      cases hstep : runStep ts (turns' i) with
      | inr r => rfl
      | inl ts2 =>
          exact ih (i + 1) ts2 (fun j hj1 hj2 => h j (by omega) (by omega))

lemma runLoopAux_exhausts (turns : Nat → ModelTurn) :
    ∀ (fuel i : Nat) (ts : List Part),
    (∀ j, i ≤ j → j < i + fuel →
      (turns j).calls ≠ [] ∧ pendingAbort (turns j).calls = none) →
    ∃ ts', runLoopAux turns fuel i ts
      = AgentTerminal.raised (Exc.mk ExcKind.RuntimeErr
          "Gemini tool loop exceeded MAX_STEPS without producing a final answer.") ts' := by
  intro fuel
  induction fuel with
  | zero => intro i ts _; exact ⟨ts, rfl⟩
  | succ f ih =>
      intro i ts h
      obtain ⟨hc, hp⟩ := h i (le_refl i) (by omega)
      unfold runLoopAux runStep
      cases hcalls : (turns i).calls with
      | nil => exact absurd hcalls hc
      | cons a l =>
          rw [hcalls] at hp
          simp only [hcalls, List.isEmpty_cons, Bool.false_eq_true, if_false, hp]
          exact ih (i + 1) _ (fun j hj1 hj2 => h j (by omega) (by omega))

/-- C7 (amended): the agent loop executes at most 64 model-call cycles — the
result never depends on any model response beyond the first `MAX_STEPS = 64`
— and if each of the first 64 cycles requests tools without producing a
final text (and without aborting), the node terminates with an error
indicating tool-loop exhaustion, raised as a generic `RuntimeError` out of
`run` (not a dedicated `ToolLoopExhaustedError`), rather than looping
further or succeeding. -/
theorem tool_loop_capped_at_64 (u : String) (turns turns' : Nat → ModelTurn) :
    ((∀ i, i < MAX_STEPS → turns i = turns' i) →
      runAgent u turns = runAgent u turns') ∧
    ((∀ i, i < MAX_STEPS →
        (turns i).calls ≠ [] ∧ pendingAbort (turns i).calls = none) →
      ∃ ts, runAgent u turns
        = AgentTerminal.raised (Exc.mk ExcKind.RuntimeErr
            "Gemini tool loop exceeded MAX_STEPS without producing a final answer.") ts) := by
  constructor
  · intro h
    exact runLoopAux_congr turns turns' MAX_STEPS 0 _ (fun j hj1 hj2 => h j (by omega))
  · intro h
    exact runLoopAux_exhausts turns MAX_STEPS 0 _ (fun j hj1 hj2 => h j (by omega))

/-- Witness for C7 (amended): a script that requests one successful tool
call on every cycle forever. -/
theorem tool_loop_capped_at_64_witness :
    runAgent "go" (fun _ => ModelTurn.mk [] "" [ToolCall.mk "id1" "t" "" (ToolOutcome.ok "r")])
      = runAgent "go" (fun _ => ModelTurn.mk [] "" [ToolCall.mk "id1" "t" "" (ToolOutcome.ok "r")]) ∧
    ∃ ts, runAgent "go" (fun _ => ModelTurn.mk [] "" [ToolCall.mk "id1" "t" "" (ToolOutcome.ok "r")])
      = AgentTerminal.raised (Exc.mk ExcKind.RuntimeErr
          "Gemini tool loop exceeded MAX_STEPS without producing a final answer.") ts :=
  ⟨(tool_loop_capped_at_64 "go"
      (fun _ => ModelTurn.mk [] "" [ToolCall.mk "id1" "t" "" (ToolOutcome.ok "r")])
      (fun _ => ModelTurn.mk [] "" [ToolCall.mk "id1" "t" "" (ToolOutcome.ok "r")])).1
    (fun _ _ => rfl),
   (tool_loop_capped_at_64 "go"
      (fun _ => ModelTurn.mk [] "" [ToolCall.mk "id1" "t" "" (ToolOutcome.ok "r")])
      (fun _ => ModelTurn.mk [] "" [ToolCall.mk "id1" "t" "" (ToolOutcome.ok "r")])).2
    (fun _ _ => ⟨by decide, rfl⟩)⟩

/-- C7 counterexample to the claim's error class: on exhaustion the gemini
loop raises Python's builtin `RuntimeError`, which is not the
`ToolLoopExhaustedError` named by the claim. -/
theorem tool_loop_exhaustion_is_runtime_error :
    ((runAgent "go" (fun _ => ModelTurn.mk [] ""
        [ToolCall.mk "id1" "t" "" (ToolOutcome.ok "r")])).exc).map Exc.kind
      = some ExcKind.RuntimeErr ∧
    some ExcKind.RuntimeErr ≠ some ExcKind.ToolLoopExhausted := by
  constructor
  · rfl
  · decide

/-- Is this part a tool-result part with the given tool_use_id? -/
def isToolResultWithId (x : String) : Part → Bool
  | .toolResult cid _ _ _ => cid = x
  | _ => false

/-- Is this part a tool-use part with the given tool_use_id? -/
def isToolUseWithId (x : String) : Part → Bool
  | .toolUse cid _ _ => cid = x
  | _ => false

/-- Is this part a tool-result part at all? -/
def isToolResultPart : Part → Bool
  | .toolResult _ _ _ _ => true
  | _ => false

/-- Number of tool-result parts with the given id in a transcript. -/
def resultCount (ts : List Part) (x : String) : Nat :=
  ts.countP (isToolResultWithId x)

/-- Number of tool-use parts with the given id in a transcript. -/
def useCount (ts : List Part) (x : String) : Nat :=
  ts.countP (isToolUseWithId x)

lemma resultPartFor_none_iff (c : ToolCall) :
    resultPartFor c = none ↔ c.isAgentAbort = true := by
  unfold resultPartFor ToolCall.isAgentAbort
  cases c.outcome with
  | spawnError e => simp
  | ok out => simp
  | raised e =>
      by_cases hk : e.kind = ExcKind.AgentAbort
      · simp [hk]
      · simp [hk]

lemma resultPartFor_isResult (c : ToolCall) (p : Part) (h : resultPartFor c = some p) :
    isToolResultPart p = true ∧
    ∀ x, isToolResultWithId x p = decide (c.cid = x) := by
  unfold resultPartFor at h
  cases hoc : c.outcome with
  | spawnError e =>
      rw [hoc] at h
      dsimp only at h
      cases h
      exact ⟨rfl, fun x => rfl⟩
  | ok out =>
      rw [hoc] at h
      dsimp only at h
      cases h
      exact ⟨rfl, fun x => rfl⟩
  | raised e =>
      rw [hoc] at h
      dsimp only at h
      by_cases hk : e.kind = ExcKind.AgentAbort
      · rw [if_pos hk] at h
        cases h
      · rw [if_neg hk] at h
        cases h
        exact ⟨rfl, fun x => rfl⟩

/-- Number of calls in a batch carrying the given tool_use_id. -/
def cidCount (calls : List ToolCall) (x : String) : Nat :=
  calls.countP (fun c => decide (c.cid = x))

lemma useCount_map_uses (calls : List ToolCall) (x : String) :
    useCount (calls.map mkToolUsePart) x = cidCount calls x := by
  rw [useCount, List.countP_map]
  rfl

lemma resultCount_map_uses (calls : List ToolCall) (x : String) :
    resultCount (calls.map mkToolUsePart) x = 0 := by
  rw [resultCount, List.countP_map]
  exact List.countP_eq_zero.mpr (fun c _ => Bool.false_ne_true)

lemma useCount_results (calls : List ToolCall) (x : String) :
    useCount (calls.filterMap resultPartFor) x = 0 := by
  rw [useCount]
  refine List.countP_eq_zero.mpr ?_
  intro p hp
  obtain ⟨c, _, hr⟩ := List.mem_filterMap.mp hp
  obtain ⟨hres, _⟩ := resultPartFor_isResult c p hr
  unfold isToolResultPart at hres
  unfold isToolUseWithId
  cases p <;> simp_all

lemma resultCount_results (calls : List ToolCall) (x : String) :
    resultCount (calls.filterMap resultPartFor) x
      = cidCount (calls.filter (fun c => !c.isAgentAbort)) x := by
  induction calls with
  | nil => rfl
  | cons c cs ih =>
      rw [List.filterMap_cons, List.filter_cons]
      cases hr : resultPartFor c with
      | none =>
          have hab : c.isAgentAbort = true := (resultPartFor_none_iff c).mp hr
          rw [hab]
          simpa using ih
      | some p =>
          have hab : c.isAgentAbort = false := by
            by_cases h2 : c.isAgentAbort = true
            · rw [(resultPartFor_none_iff c).mpr h2] at hr
              cases hr
            · simpa using h2
          rw [hab]
          simp only [Bool.not_false, if_true]
          rw [resultCount, List.countP_cons, cidCount, List.countP_cons]
          rw [resultCount] at ih
          rw [cidCount] at ih
          rw [ih]
          obtain ⟨_, hids⟩ := resultPartFor_isResult c p hr
          rw [hids x]

lemma useCount_ext (calls : List ToolCall) (x : String) :
    useCount (turnTranscriptExt calls) x = cidCount calls x := by
  unfold turnTranscriptExt useCount
  rw [List.countP_append]
  have h1 := useCount_map_uses calls x
  have h2 := useCount_results calls x
  rw [useCount] at h1 h2
  omega

lemma resultCount_ext (calls : List ToolCall) (x : String) :
    resultCount (turnTranscriptExt calls) x
      = cidCount (calls.filter (fun c => !c.isAgentAbort)) x := by
  unfold turnTranscriptExt resultCount
  rw [List.countP_append]
  have h1 := resultCount_map_uses calls x
  have h2 := resultCount_results calls x
  rw [resultCount] at h1 h2
  omega

lemma useCount_sigs (sigs : List String) (x : String) :
    useCount (sigs.map (fun sg => Part.thinkingBlock "" sg)) x = 0 := by
  rw [useCount, List.countP_map]
  exact List.countP_eq_zero.mpr (fun s _ => Bool.false_ne_true)

lemma resultCount_sigs (sigs : List String) (x : String) :
    resultCount (sigs.map (fun sg => Part.thinkingBlock "" sg)) x = 0 := by
  rw [resultCount, List.countP_map]
  exact List.countP_eq_zero.mpr (fun s _ => Bool.false_ne_true)

lemma pendingAbortAux_none (calls : List ToolCall) :
    ∀ acc, calls.foldl (fun acc c =>
      match c.outcome with
      | .raised e => if e.kind = ExcKind.AgentAbort then some e else acc
      | _ => acc) acc = none ↔
    (acc = none ∧ ∀ c ∈ calls, c.isAgentAbort = false) := by
  induction calls with
  | nil => intro acc; simp
  | cons c cs ih =>
      intro acc
      rw [List.foldl_cons, ih]
      unfold ToolCall.isAgentAbort
      constructor
      · rintro ⟨h1, h2⟩
        cases hoc : c.outcome with
        | spawnError e =>
            rw [hoc] at h1
            refine ⟨h1, fun c2 hc2 => ?_⟩
            rcases List.mem_cons.mp hc2 with h | h
            · subst h; rw [hoc]
            · exact h2 c2 h
        | ok out =>
            rw [hoc] at h1
            refine ⟨h1, fun c2 hc2 => ?_⟩
            rcases List.mem_cons.mp hc2 with h | h
            · subst h; rw [hoc]
            · exact h2 c2 h
        | raised e =>
            rw [hoc] at h1
            dsimp only at h1
            by_cases hk : e.kind = ExcKind.AgentAbort
            · rw [if_pos hk] at h1
              cases h1
            · rw [if_neg hk] at h1
              refine ⟨h1, fun c2 hc2 => ?_⟩
              rcases List.mem_cons.mp hc2 with h | h
              · subst h; rw [hoc]; simpa using hk
              · exact h2 c2 h
      · rintro ⟨h1, h2⟩
        have hcself := h2 c (List.mem_cons_self c cs)
        refine ⟨?_, fun c2 hc2 => h2 c2 (List.mem_cons_of_mem c hc2)⟩
        cases hoc : c.outcome with
        | spawnError e =>
            dsimp only
            exact h1
        | ok out =>
            dsimp only
            exact h1
        | raised e =>
            dsimp only
            rw [hoc] at hcself
            dsimp only at hcself
            rw [if_neg (by simpa using hcself)]
            exact h1

lemma pendingAbort_none_iff (calls : List ToolCall) :
    pendingAbort calls = none ↔ ∀ c ∈ calls, c.isAgentAbort = false := by
  unfold pendingAbort
  rw [pendingAbortAux_none calls none]
  simp

lemma cidCount_eq_zero (calls : List ToolCall) (x : String)
    (h : ∀ c ∈ calls, c.cid ≠ x) : cidCount calls x = 0 :=
  List.countP_eq_zero.mpr (fun c hc => by simp [h c hc])

lemma cidCount_nodup_mem (calls : List ToolCall) (c0 : ToolCall)
    (hnd : (calls.map ToolCall.cid).Nodup) (hm : c0 ∈ calls) :
    cidCount calls c0.cid = 1 := by
  induction calls with
  | nil => cases hm
  | cons c cs ih =>
      rw [List.map_cons, List.nodup_cons] at hnd
      obtain ⟨hni, hnd2⟩ := hnd
      rcases List.mem_cons.mp hm with h | h
      · subst h
        rw [cidCount, List.countP_cons]
        have hz : cidCount cs c0.cid = 0 := by
          refine cidCount_eq_zero cs c0.cid (fun c2 hc2 hcid => ?_)
          exact hni (hcid ▸ List.mem_map_of_mem ToolCall.cid hc2)
        rw [cidCount] at hz
        rw [hz]
        simp
      · have hne : c.cid ≠ c0.cid := by
          intro he
          exact hni (he ▸ List.mem_map_of_mem ToolCall.cid h)
        rw [cidCount, List.countP_cons]
        rw [cidCount] at ih
        rw [ih hnd2 h]
        simp [hne]

lemma cidCount_filter_nodup (calls : List ToolCall) (c0 : ToolCall) (q : ToolCall → Bool)
    (hnd : (calls.map ToolCall.cid).Nodup) (hm : c0 ∈ calls) :
    cidCount (calls.filter q) c0.cid = if q c0 then 1 else 0 := by
  induction calls with
  | nil => cases hm
  | cons c cs ih =>
      rw [List.map_cons, List.nodup_cons] at hnd
      obtain ⟨hni, hnd2⟩ := hnd
      rcases List.mem_cons.mp hm with h | h
      · subst h
        have hz : cidCount (cs.filter q) c0.cid = 0 := by
          refine cidCount_eq_zero _ c0.cid (fun c2 hc2 hcid => ?_)
          exact hni (hcid ▸ List.mem_map_of_mem ToolCall.cid (List.mem_of_mem_filter hc2))
        rw [List.filter_cons]
        cases hq : q c0 with
        | true =>
            rw [if_pos rfl, cidCount, List.countP_cons]
            rw [cidCount] at hz
            rw [hz]
            simp
        | false =>
            simp only [Bool.false_eq_true, if_false]
            rw [hz]
      · have hne : c.cid ≠ c0.cid := by
          intro he
          exact hni (he ▸ List.mem_map_of_mem ToolCall.cid h)
        rw [List.filter_cons]
        cases hq : q c with
        | true =>
            rw [if_pos rfl, cidCount, List.countP_cons]
            rw [cidCount] at ih
            rw [ih hnd2 h]
            simp [hne]
        | false =>
            simp only [Bool.false_eq_true, if_false]
            exact ih hnd2 h

lemma spawnPhase_append (l1 l2 : List ToolCall) :
    spawnPhaseEvents (l1 ++ l2) = spawnPhaseEvents l1 ++ spawnPhaseEvents l2 := by
  unfold spawnPhaseEvents
  rw [List.flatMap_append]

lemma spawnPhase_no_results (calls : List ToolCall) :
    ∀ p, TurnEvent.transcriptAppend p ∈ spawnPhaseEvents calls →
      isToolResultPart p = false := by
  intro p hp
  unfold spawnPhaseEvents at hp
  obtain ⟨c, _, hmem⟩ := List.mem_flatMap.mp hp
  rcases List.mem_cons.mp hmem with h | h
  · injection h with h2
    subst h2
    rfl
  · have h2 := List.mem_singleton.mp h
    cases h2

/-- The spawn phase appends each call's `ToolUsePart` immediately before
spawning its child, and appends no tool-result part at all: every result
part of the turn comes later, in the await phase. -/
lemma turn_use_precedes_spawn_and_results (calls : List ToolCall) (c : ToolCall)
    (hm : c ∈ calls) :
    ∃ l1 l2, turnEvents calls
      = l1 ++ TurnEvent.transcriptAppend (mkToolUsePart c)
          :: TurnEvent.spawnChild c.cid :: l2 ∧
      (∀ p, TurnEvent.transcriptAppend p ∈ l1 → isToolResultPart p = false) := by
  obtain ⟨s, t, hst⟩ := List.append_of_mem hm
  refine ⟨spawnPhaseEvents s, spawnPhaseEvents t ++ awaitPhaseEvents calls, ?_, ?_⟩
  · unfold turnEvents
    rw [hst, spawnPhase_append]
    have hcons : spawnPhaseEvents (c :: t)
        = TurnEvent.transcriptAppend (mkToolUsePart c)
          :: TurnEvent.spawnChild c.cid :: spawnPhaseEvents t := by
      unfold spawnPhaseEvents
      rw [List.flatMap_cons]
      rfl
    rw [hcons]
    simp [List.append_assoc]
  · exact fun p hp => spawnPhase_no_results s p hp

lemma spawnPhase_parts (calls : List ToolCall) :
    (spawnPhaseEvents calls).filterMap eventPart = calls.map mkToolUsePart := by
  induction calls with
  | nil => rfl
  | cons c cs ih =>
      have hcons : spawnPhaseEvents (c :: cs)
          = TurnEvent.transcriptAppend (mkToolUsePart c)
            :: TurnEvent.spawnChild c.cid :: spawnPhaseEvents cs := by
        unfold spawnPhaseEvents
        rw [List.flatMap_cons]
        rfl
      rw [hcons, List.filterMap_cons, List.filterMap_cons]
      simp only [eventPart]
      rw [ih]
      rfl

lemma awaitPhase_parts (calls : List ToolCall) :
    (awaitPhaseEvents calls).filterMap eventPart = calls.filterMap resultPartFor := by
  induction calls with
  | nil => rfl
  | cons c cs ih =>
      have hcons : awaitPhaseEvents (c :: cs)
          = ((match c.outcome with
              | .spawnError _ => []
              | _ => [TurnEvent.awaitChild c.cid])
            ++ (resultPartFor c).toList.map TurnEvent.transcriptAppend)
            ++ awaitPhaseEvents cs := by
        unfold awaitPhaseEvents
        rw [List.flatMap_cons]
      rw [hcons, List.filterMap_append, ih, List.filterMap_cons, List.filterMap_append]
      cases hoc : c.outcome <;> cases hr : resultPartFor c <;> simp [eventPart]

/-- The transcript extension of a turn is exactly the parts appended by the
turn's events, in order. -/
lemma turnEvents_parts (calls : List ToolCall) :
    (turnEvents calls).filterMap eventPart = turnTranscriptExt calls := by
  unfold turnEvents turnTranscriptExt
  rw [List.filterMap_append, spawnPhase_parts, awaitPhase_parts]

lemma useCount_append (a b : List Part) (x : String) :
    useCount (a ++ b) x = useCount a x + useCount b x :=
  List.countP_append _ _ _

lemma resultCount_append (a b : List Part) (x : String) :
    resultCount (a ++ b) x = resultCount a x + resultCount b x :=
  List.countP_append _ _ _

lemma cidCount_pos (calls : List ToolCall) (x : String) (h : 0 < cidCount calls x) :
    ∃ c ∈ calls, c.cid = x := by
  obtain ⟨c, hc, hp⟩ := List.countP_pos_iff.mp h
  exact ⟨c, hc, of_decide_eq_true hp⟩

lemma cidCount_le_one (calls : List ToolCall) (x : String)
    (hnd : (calls.map ToolCall.cid).Nodup) : cidCount calls x ≤ 1 := by
  by_cases h : ∃ c ∈ calls, c.cid = x
  · obtain ⟨c, hc, hcid⟩ := h
    rw [← hcid]
    rw [cidCount_nodup_mem calls c hnd hc]
  · push_neg at h
    rw [cidCount_eq_zero calls x h]
    omega

lemma cidCount_zero_iff (calls : List ToolCall) (x : String) :
    cidCount calls x = 0 ↔ ∀ c ∈ calls, c.cid ≠ x := by
  constructor
  · intro h c hc hcid
    have : 0 < cidCount calls x := by
      have := cidCount_nodup_mem  -- not applicable without nodup; count directly
      refine List.countP_pos_iff.mpr ⟨c, hc, ?_⟩
      exact decide_eq_true hcid
    omega
  · exact cidCount_eq_zero calls x

lemma runStep_no_calls (ts : List Part) (t : ModelTurn) (h : t.calls = []) :
    runStep ts t = Sum.inr (AgentTerminal.success t.text
      ((ts ++ t.sigs.map (fun sg => Part.thinkingBlock "" sg))
        ++ [Part.modelText t.text])) := by
  unfold runStep
  rw [h]
  rfl

lemma runStep_with_calls (ts : List Part) (t : ModelTurn) (hne : t.calls ≠ []) :
    runStep ts t
      = match pendingAbort t.calls with
        | some e => Sum.inr (AgentTerminal.aborted e
            ((ts ++ t.sigs.map (fun sg => Part.thinkingBlock "" sg))
              ++ turnTranscriptExt t.calls))
        | none => Sum.inl
            ((ts ++ t.sigs.map (fun sg => Part.thinkingBlock "" sg))
              ++ turnTranscriptExt t.calls) := by
  unfold runStep
  cases hcalls : t.calls with
  | nil => exact absurd hcalls hne
  | cons a l =>
      simp only [hcalls, List.isEmpty_cons, Bool.false_eq_true, if_false]

/-- The tool_use_ids requested by all model turns from index `i` on, for
`fuel` remaining cycles. -/
def futureCids (turns : Nat → ModelTurn) : Nat → Nat → List String
  | 0, _ => []
  | fuel + 1, i => (turns i).calls.map ToolCall.cid ++ futureCids turns fuel (i + 1)

lemma useCount_modelText (s x : String) : useCount [Part.modelText s] x = 0 := rfl

lemma resultCount_modelText (s x : String) : resultCount [Part.modelText s] x = 0 := rfl

/-- Tool round-trip invariant of the whole loop: with globally distinct
tool_use_ids, every tool-use part of the final transcript has exactly one
tool-result part with the same id, except that an Agent-Abort terminal may
leave the aborting calls without results. -/
lemma runLoop_roundtrip (turns : Nat → ModelTurn) :
    ∀ (fuel i : Nat) (ts : List Part),
    (∀ x, resultCount ts x = useCount ts x) →
    (∀ x, useCount ts x ≤ 1) →
    (∀ x, x ∈ futureCids turns fuel i → useCount ts x = 0 ∧ resultCount ts x = 0) →
    (futureCids turns fuel i).Nodup →
    ∀ x, useCount (runLoopAux turns fuel i ts).transcript x = 1 →
      resultCount (runLoopAux turns fuel i ts).transcript x = 1 ∨
      ((∃ e ts2, runLoopAux turns fuel i ts = AgentTerminal.aborted e ts2) ∧
        resultCount (runLoopAux turns fuel i ts).transcript x = 0) := by
  intro fuel
  induction fuel with
  | zero =>
      intro i ts hA _ _ _ x hx
      unfold runLoopAux at hx ⊢
      left
      rw [AgentTerminal.transcript] at hx ⊢
      rw [hA x, hx]
  | succ f ih =>
      intro i ts hA hB hC hD x
      have hfut : futureCids turns (f + 1) i
          = (turns i).calls.map ToolCall.cid ++ futureCids turns f (i + 1) := rfl
      rw [hfut] at hC hD
      rw [List.nodup_append] at hD
      obtain ⟨hndTurn, hndRest, hdisj⟩ := hD
      by_cases hcalls : (turns i).calls = []
      · unfold runLoopAux
        rw [runStep_no_calls ts (turns i) hcalls]
        rw [AgentTerminal.transcript]
        intro hx
        rw [useCount_append, useCount_append, useCount_sigs, useCount_modelText] at hx
        left
        rw [resultCount_append, resultCount_append, resultCount_sigs, resultCount_modelText]
        rw [hA x]
        omega
      · unfold runLoopAux
        rw [runStep_with_calls ts (turns i) hcalls]
        cases hpa : pendingAbort (turns i).calls with
        | some e =>
            dsimp only
            rw [AgentTerminal.transcript]
            intro hx
            rw [useCount_append, useCount_append, useCount_sigs, useCount_ext] at hx
            rw [resultCount_append, resultCount_append, resultCount_sigs, resultCount_ext]
            by_cases hcid : 0 < cidCount (turns i).calls x
            · obtain ⟨c0, hc0, hc0x⟩ := cidCount_pos _ x hcid
              have hxturn : x ∈ (turns i).calls.map ToolCall.cid :=
                hc0x ▸ List.mem_map_of_mem ToolCall.cid hc0
              obtain ⟨hu0, hr0⟩ := hC x (List.mem_append_left _ hxturn)
              subst hc0x
              rw [cidCount_filter_nodup _ c0 _ hndTurn hc0]
              cases hab : c0.isAgentAbort with
              | false =>
                  left
                  rw [hr0]
                  simp [hab]
              | true =>
                  right
                  refine ⟨⟨e, _, rfl⟩, ?_⟩
                  rw [hr0]
                  simp [hab]
            · have hz : cidCount (turns i).calls x = 0 := by omega
              have hzf : cidCount ((turns i).calls.filter (fun c => !c.isAgentAbort)) x = 0 := by
                refine cidCount_eq_zero _ x (fun c hc => ?_)
                exact (cidCount_zero_iff _ x).mp hz c (List.mem_of_mem_filter hc)
              left
              rw [hz] at hx
              rw [hzf, hA x]
              omega
        | none =>
            dsimp only
            have hall : ∀ c ∈ (turns i).calls, c.isAgentAbort = false :=
              (pendingAbort_none_iff _).mp hpa
            have hfe : (turns i).calls.filter (fun c => !c.isAgentAbort) = (turns i).calls :=
              List.filter_eq_self.mpr (fun c hc => by rw [hall c hc]; rfl)
            refine ih (i + 1) _ ?_ ?_ ?_ hndRest x
            · intro y
              rw [useCount_append, useCount_append, useCount_sigs, useCount_ext,
                resultCount_append, resultCount_append, resultCount_sigs, resultCount_ext,
                hfe, hA y]
            · intro y
              rw [useCount_append, useCount_append, useCount_sigs, useCount_ext]
              by_cases hcid : 0 < cidCount (turns i).calls y
              · obtain ⟨c0, hc0, hc0y⟩ := cidCount_pos _ y hcid
                have hyturn : y ∈ (turns i).calls.map ToolCall.cid :=
                  hc0y ▸ List.mem_map_of_mem ToolCall.cid hc0
                obtain ⟨hu0, _⟩ := hC y (List.mem_append_left _ hyturn)
                have hle := cidCount_le_one (turns i).calls y hndTurn
                omega
              · have hy := hB y
                omega
            · intro y hy
              have hynot : y ∉ (turns i).calls.map ToolCall.cid := fun hmem =>
                (List.disjoint_right.mp hdisj) hy hmem
              have hz : cidCount (turns i).calls y = 0 := by
                refine cidCount_eq_zero _ y (fun c hc hcid => ?_)
                exact hynot (hcid ▸ List.mem_map_of_mem ToolCall.cid hc)
              obtain ⟨hu0, hr0⟩ := hC y (List.mem_append_right _ hy)
              constructor
              · rw [useCount_append, useCount_append, useCount_sigs, useCount_ext, hz, hu0]
              · rw [resultCount_append, resultCount_append, resultCount_sigs,
                  resultCount_ext, hfe, hz, hr0]

/-- Demo calls for concrete evaluation of the loop embedding. -/
def demoOk : ToolCall := ToolCall.mk "a" "t1" "x=1" (ToolOutcome.ok "r")

def demoAbort : ToolCall :=
  ToolCall.mk "b" "t2" "" (ToolOutcome.raised (Exc.mk ExcKind.AgentAbort "stop"))

def demoErr : ToolCall :=
  ToolCall.mk "c" "t3" "" (ToolOutcome.raised (Exc.mk ExcKind.OtherErr "boom"))

/-- A demo script: one turn with two tool calls, then a final text. -/
def demoTurns : Nat → ModelTurn := fun i =>
  if i = 0 then ModelTurn.mk [] "" [demoOk, demoErr] else ModelTurn.mk [] "done" []

/-- C3: in every turn of the agent tool-call loop, each `ToolUsePart` is
appended to the transcript before the corresponding child is spawned and
before any `ToolResultPart` of the turn; the `ToolResultPart`s of the turn
are appended in request order (the await phase walks the calls in request
order regardless of child completion order); with distinct tool_use_ids,
each call has exactly one result in the turn except an aborting call, which
has none; and over the whole transcript, every tool-use part is followed by
exactly one tool-result part with the same tool_use_id unless the node
terminated with the Agent-Abort before that result was recorded. -/
theorem tool_call_transcript_ordering
    (calls : List ToolCall) (u : String) (turns : Nat → ModelTurn) :
    (∀ c ∈ calls, ∃ l1 l2, turnEvents calls
        = l1 ++ TurnEvent.transcriptAppend (mkToolUsePart c)
            :: TurnEvent.spawnChild c.cid :: l2 ∧
        (∀ p, TurnEvent.transcriptAppend p ∈ l1 → isToolResultPart p = false)) ∧
    ((turnEvents calls).filterMap eventPart = turnTranscriptExt calls ∧
      turnTranscriptExt calls
        = calls.map mkToolUsePart ++ calls.filterMap resultPartFor) ∧
    ((calls.map ToolCall.cid).Nodup →
      ∀ c ∈ calls, useCount (turnTranscriptExt calls) c.cid = 1 ∧
        resultCount (turnTranscriptExt calls) c.cid
          = if c.isAgentAbort then 0 else 1) ∧
    ((futureCids turns MAX_STEPS 0).Nodup →
      ∀ x, useCount (runAgent u turns).transcript x = 1 →
        resultCount (runAgent u turns).transcript x = 1 ∨
        ((∃ e ts2, runAgent u turns = AgentTerminal.aborted e ts2) ∧
          resultCount (runAgent u turns).transcript x = 0)) := by
  refine ⟨?_, ⟨turnEvents_parts calls, rfl⟩, ?_, ?_⟩
  · intro c hc
    exact turn_use_precedes_spawn_and_results calls c hc
  · intro hnd c hc
    constructor
    · rw [useCount_ext]
      exact cidCount_nodup_mem calls c hnd hc
    · rw [resultCount_ext]
      rw [cidCount_filter_nodup calls c _ hnd hc]
      cases hab : c.isAgentAbort <;> simp [hab]
  · intro hnd x
    refine runLoop_roundtrip turns MAX_STEPS 0 [Part.userText u] ?_ ?_ ?_ hnd x
    · intro y; rfl
    · intro y
      show List.countP (isToolUseWithId y) [Part.userText u] ≤ 1
      rw [List.countP_cons, List.countP_nil]
      simp [isToolUseWithId]
    · intro y _
      exact ⟨rfl, rfl⟩

/-- Witness for C3: a concrete turn with two distinct calls, inside the
demo script that then finishes with a final text. -/
theorem tool_call_transcript_ordering_witness :
    (∀ c ∈ [demoOk, demoErr], ∃ l1 l2, turnEvents [demoOk, demoErr]
        = l1 ++ TurnEvent.transcriptAppend (mkToolUsePart c)
            :: TurnEvent.spawnChild c.cid :: l2 ∧
        (∀ p, TurnEvent.transcriptAppend p ∈ l1 → isToolResultPart p = false)) ∧
    ((turnEvents [demoOk, demoErr]).filterMap eventPart
        = turnTranscriptExt [demoOk, demoErr] ∧
      turnTranscriptExt [demoOk, demoErr]
        = [demoOk, demoErr].map mkToolUsePart
          ++ [demoOk, demoErr].filterMap resultPartFor) ∧
    (∀ c ∈ [demoOk, demoErr], useCount (turnTranscriptExt [demoOk, demoErr]) c.cid = 1 ∧
      resultCount (turnTranscriptExt [demoOk, demoErr]) c.cid
        = if c.isAgentAbort then 0 else 1) ∧
    (∀ x, useCount (runAgent "u" demoTurns).transcript x = 1 →
      resultCount (runAgent "u" demoTurns).transcript x = 1 ∨
      ((∃ e ts2, runAgent "u" demoTurns = AgentTerminal.aborted e ts2) ∧
        resultCount (runAgent "u" demoTurns).transcript x = 0)) :=
  ⟨(tool_call_transcript_ordering [demoOk, demoErr] "u" demoTurns).1,
   (tool_call_transcript_ordering [demoOk, demoErr] "u" demoTurns).2.1,
   (tool_call_transcript_ordering [demoOk, demoErr] "u" demoTurns).2.2.1 (by decide),
   (tool_call_transcript_ordering [demoOk, demoErr] "u" demoTurns).2.2.2 (by decide)⟩

/-- C4 (amended): failed dispatches and ordinary child exceptions are
recorded as tool-error results carrying the stringified error and the loop
continues to the next model call; successes are recorded with
`is_error = false`; on an Agent-Abort from a child, the remaining children
of the batch are still processed (each non-aborting call keeps exactly one
result), the aborting call's result is not accumulated, and the loop posts
the abort exception as the node's terminal exception and returns. -/
theorem tool_child_error_handling
    (calls : List ToolCall) (ts : List Part) (t : ModelTurn) :
    (∀ c ∈ calls, ∀ e, c.outcome = ToolOutcome.spawnError e →
      resultPartFor c
        = some (Part.toolResult c.cid c.name (stringify_exception e) true)) ∧
    (∀ c ∈ calls, ∀ e, c.outcome = ToolOutcome.raised e → e.kind ≠ ExcKind.AgentAbort →
      resultPartFor c
        = some (Part.toolResult c.cid c.name (stringify_exception e) true)) ∧
    (∀ c ∈ calls, ∀ out, c.outcome = ToolOutcome.ok out →
      resultPartFor c = some (Part.toolResult c.cid c.name out false)) ∧
    (t.calls ≠ [] → pendingAbort t.calls = none →
      runStep ts t = Sum.inl
        ((ts ++ t.sigs.map (fun sg => Part.thinkingBlock "" sg))
          ++ turnTranscriptExt t.calls)) ∧
    (∀ e, t.calls ≠ [] → pendingAbort t.calls = some e →
      runStep ts t = Sum.inr (AgentTerminal.aborted e
        ((ts ++ t.sigs.map (fun sg => Part.thinkingBlock "" sg))
          ++ turnTranscriptExt t.calls)) ∧
      ((t.calls.map ToolCall.cid).Nodup →
        ∀ c ∈ t.calls, resultCount (turnTranscriptExt t.calls) c.cid
          = if c.isAgentAbort then 0 else 1)) := by
  refine ⟨?_, ?_, ?_, ?_, ?_⟩
  · intro c _ e he
    unfold resultPartFor
    rw [he]
  · intro c _ e he hk
    unfold resultPartFor
    rw [he]
    dsimp only
    rw [if_neg hk]
  · intro c _ out ho
    unfold resultPartFor
    rw [ho]
  · intro hne hpa
    rw [runStep_with_calls ts t hne, hpa]
  · intro e hne hpa
    refine ⟨by rw [runStep_with_calls ts t hne, hpa], ?_⟩
    intro hnd c hc
    rw [resultCount_ext]
    rw [cidCount_filter_nodup t.calls c _ hnd hc]
    cases hab : c.isAgentAbort <;> simp [hab]

/-- Witness for C4 (amended): a batch with a success, an abort and an
ordinary error; the step terminates with the abort as terminal exception
while the non-aborting calls keep their results. -/
theorem tool_child_error_handling_witness :
    runStep [Part.userText "u"] (ModelTurn.mk [] "" [demoOk, demoAbort, demoErr])
      = Sum.inr (AgentTerminal.aborted (Exc.mk ExcKind.AgentAbort "stop")
        (([Part.userText "u"]
          ++ (ModelTurn.mk [] "" [demoOk, demoAbort, demoErr]).sigs.map
              (fun sg => Part.thinkingBlock "" sg))
          ++ turnTranscriptExt [demoOk, demoAbort, demoErr])) ∧
    (∀ c ∈ [demoOk, demoAbort, demoErr],
      resultCount (turnTranscriptExt [demoOk, demoAbort, demoErr]) c.cid
        = if c.isAgentAbort then 0 else 1) :=
  have h := (tool_child_error_handling [demoOk, demoAbort, demoErr]
    [Part.userText "u"] (ModelTurn.mk [] "" [demoOk, demoAbort, demoErr])).2.2.2.2
    (Exc.mk ExcKind.AgentAbort "stop") (by decide) (by rfl)
  ⟨h.1, h.2 (by decide)⟩

/-- C4's claim that a child's `CancellationError` propagates like the abort
is false on the code: the loop records it as an ordinary tool-error result
and continues to the next model call instead of posting it as the node's
terminal exception. -/
theorem cancellation_from_child_is_tool_error_not_terminal :
    resultPartFor (ToolCall.mk "i1" "t" ""
        (ToolOutcome.raised (Exc.mk ExcKind.Cancellation "canceled")))
      = some (Part.toolResult "i1" "t" "canceled" true) ∧
    runStep [Part.userText "u"]
        (ModelTurn.mk [] "" [ToolCall.mk "i1" "t" ""
          (ToolOutcome.raised (Exc.mk ExcKind.Cancellation "canceled"))])
      = Sum.inl ([Part.userText "u"]
          ++ turnTranscriptExt [ToolCall.mk "i1" "t" ""
            (ToolOutcome.raised (Exc.mk ExcKind.Cancellation "canceled"))]) := by
  constructor <;> rfl

/-- The specification universe for registration: `n` `Function` objects,
each with a `name` and a `uses` list referencing other objects.  Object
identity (Python `is`) is the index; the same index reached twice is the
same instance, two distinct indices are distinct instances (possibly with
equal names). -/
structure FuncEnv (n : Nat) where
  name : Fin n → String
  uses : Fin n → List (Fin n)

set_option linter.unusedVariables false in
/-- The registration BFS of `Runtime.__init__` (runtime.py lines 41-59):
pop the queue; a specification already registered under its name is skipped
when it is the same instance and fails construction when it is a distinct
instance; otherwise it is registered and its `uses` are appended to the
queue.  (`_fn_by_name[fn.name] is fn` is equivalent, given that registered
names are distinct, to the index being registered.) -/
def bfsRegister {n : Nat} (env : FuncEnv n) :
    List (Fin n) → Finset (Fin n) → Except String (Finset (Fin n))
  | [], reg => Except.ok reg
  | i :: queue, reg =>
      if hmem : i ∈ reg then bfsRegister env queue reg
      else if ∃ j ∈ reg, env.name j = env.name i then
        Except.error "Duplicate Function name found during registration."
      else
        bfsRegister env (queue ++ env.uses i) (insert i reg)
termination_by queue reg => (n - reg.card, queue.length)
decreasing_by
  · apply Prod.Lex.right
    simp
  · apply Prod.Lex.left
    have hle : reg.card < n := by
      rcases Nat.lt_or_ge reg.card n with h | h
      · exact h
      · exfalso
        have hcard : reg.card = n := le_antisymm
          (by simpa using Finset.card_le_univ reg) h
        have huniv : reg = Finset.univ :=
          Finset.eq_univ_of_card reg (by simpa using hcard)
        exact hmem (huniv ▸ Finset.mem_univ i)
    rw [Finset.card_insert_of_not_mem hmem]
    omega

/-- Transitive reachability along `uses` from the seed list (the
"transitively referenced" specifications). -/
inductive ReachesSpec {n : Nat} (env : FuncEnv n) (roots : List (Fin n)) : Fin n → Prop
  | root {i : Fin n} : i ∈ roots → ReachesSpec env roots i
  | step {i j : Fin n} : ReachesSpec env roots i → j ∈ env.uses i → ReachesSpec env roots j

lemma bfs_invariant {n : Nat} (env : FuncEnv n) (roots : List (Fin n)) :
    ∀ (queue : List (Fin n)) (reg : Finset (Fin n)),
    (∀ i ∈ queue, ReachesSpec env roots i) →
    (∀ i ∈ reg, ReachesSpec env roots i) →
    (∀ i ∈ reg, ∀ j ∈ reg, env.name i = env.name j → i = j) →
    (∀ i ∈ reg, ∀ u ∈ env.uses i, u ∈ reg ∨ u ∈ queue) →
    (∀ r ∈ roots, r ∈ reg ∨ r ∈ queue) →
    (∀ regF, bfsRegister env queue reg = Except.ok regF →
        (∀ i, i ∈ regF ↔ ReachesSpec env roots i) ∧
        (∀ i ∈ regF, ∀ j ∈ regF, env.name i = env.name j → i = j)) ∧
    (∀ msg, bfsRegister env queue reg = Except.error msg →
        ∃ i j, ReachesSpec env roots i ∧ ReachesSpec env roots j ∧ i ≠ j ∧
          env.name i = env.name j) := by
  intro queue reg
  induction queue, reg using bfsRegister.induct env with
  | case1 reg =>
      intro _ hr hnames hclosed hseed
      constructor
      · intro regF hok
        simp only [bfsRegister] at hok
        cases hok
        refine ⟨?_, hnames⟩
        intro i
        constructor
        · exact fun hi => hr i hi
        · intro hreach
          induction hreach with
          | root hroot =>
              rcases hseed _ hroot with h | h
              · exact h
              · cases h
          | step _ huse ih2 =>
              rcases hclosed _ ih2 _ huse with h | h
              · exact h
              · cases h
      · intro msg herr
        simp only [bfsRegister] at herr
        cases herr
  | case2 i queue reg hmem ih =>
      intro hq hr hnames hclosed hseed
      have heq : bfsRegister env (i :: queue) reg = bfsRegister env queue reg := by
        rw [bfsRegister, dif_pos hmem]
      rw [heq]
      refine ih (fun u hu => hq u (List.mem_cons_of_mem i hu)) hr hnames ?_ ?_
      · intro a ha u hu
        rcases hclosed a ha u hu with h | h
        · exact Or.inl h
        · rcases List.mem_cons.mp h with h2 | h2
          · exact Or.inl (h2 ▸ hmem)
          · exact Or.inr h2
      · intro r hrr
        rcases hseed r hrr with h | h
        · exact Or.inl h
        · rcases List.mem_cons.mp h with h2 | h2
          · exact Or.inl (h2 ▸ hmem)
          · exact Or.inr h2
  | case3 i queue reg hmem hex =>
      intro hq hr _ _ _
      have heq : bfsRegister env (i :: queue) reg
          = Except.error "Duplicate Function name found during registration." := by
        rw [bfsRegister, dif_neg hmem, if_pos hex]
      rw [heq]
      constructor
      · intro regF hok
        cases hok
      · intro msg _
        obtain ⟨j, hj, hname⟩ := hex
        refine ⟨j, i, hr j hj, hq i (List.mem_cons_self i queue), ?_, hname⟩
        intro hji
        exact hmem (hji ▸ hj)
  | case4 i queue reg hmem hnex ih =>
      intro hq hr hnames hclosed hseed
      have heq : bfsRegister env (i :: queue) reg
          = bfsRegister env (queue ++ env.uses i) (insert i reg) := by
        rw [bfsRegister, dif_neg hmem, if_neg hnex]
      rw [heq]
      push_neg at hnex
      refine ih ?_ ?_ ?_ ?_ ?_
      · intro u hu
        rcases List.mem_append.mp hu with h | h
        · exact hq u (List.mem_cons_of_mem i h)
        · exact ReachesSpec.step (hq i (List.mem_cons_self i queue)) h
      · intro u hu
        rcases Finset.mem_insert.mp hu with h | h
        · exact h ▸ hq i (List.mem_cons_self i queue)
        · exact hr u h
      · intro a ha b hb hab
        rcases Finset.mem_insert.mp ha with ha2 | ha2 <;>
          rcases Finset.mem_insert.mp hb with hb2 | hb2
        · rw [ha2, hb2]
        · subst ha2
          exact absurd hab.symm (hnex b hb2)
        · subst hb2
          exact absurd hab (hnex a ha2)
        · exact hnames a ha2 b hb2 hab
      · intro a ha u hu
        rcases Finset.mem_insert.mp ha with ha2 | ha2
        · subst ha2
          exact Or.inr (List.mem_append_right queue hu)
        · rcases hclosed a ha2 u hu with h | h
          · exact Or.inl (Finset.mem_insert_of_mem h)
          · rcases List.mem_cons.mp h with h2 | h2
            · exact Or.inl (h2 ▸ Finset.mem_insert_self i reg)
            · exact Or.inr (List.mem_append_left _ h2)
      · intro r hrr
        rcases hseed r hrr with h | h
        · exact Or.inl (Finset.mem_insert_of_mem h)
        · rcases List.mem_cons.mp h with h2 | h2
          · exact Or.inl (h2 ▸ Finset.mem_insert_self i reg)
          · exact Or.inr (List.mem_append_left _ h2)

/-- C8: runtime construction BFS-traverses the `uses` graph registering
every transitively referenced specification by name, and raises an error if
and only if two distinct `Function` objects (distinct indices) with the
same name are transitively referenced; reaching the same instance more than
once is accepted (the iff's right-to-left direction requires two *distinct*
objects, so duplicate references to one instance never fail). -/
theorem registration_bfs_collision_iff
    {n : Nat} (env : FuncEnv n) (roots : List (Fin n)) :
    ((∃ msg, bfsRegister env roots ∅ = Except.error msg) ↔
      (∃ i j, ReachesSpec env roots i ∧ ReachesSpec env roots j ∧ i ≠ j ∧
        env.name i = env.name j)) ∧
    (∀ reg, bfsRegister env roots ∅ = Except.ok reg →
      ∀ i, i ∈ reg ↔ ReachesSpec env roots i) := by
  obtain ⟨hok, herr⟩ := bfs_invariant env roots roots ∅
    (fun i hi => ReachesSpec.root hi)
    (fun i hi => absurd hi (Finset.not_mem_empty i))
    (fun i hi => absurd hi (Finset.not_mem_empty i))
    (fun i hi => absurd hi (Finset.not_mem_empty i))
    (fun _ hr => Or.inr hr)
  constructor
  · constructor
    · rintro ⟨msg, hmsg⟩
      exact herr msg hmsg
    · rintro ⟨i, j, hi, hj, hne, hname⟩
      cases hres : bfsRegister env roots ∅ with
      | ok reg =>
          obtain ⟨hmemiff, hnames⟩ := hok reg hres
          exact absurd (hnames i ((hmemiff i).mpr hi) j ((hmemiff j).mpr hj) hname) hne
      | error msg => exact ⟨msg, rfl⟩
  · intro reg hres
    exact (hok reg hres).1

/-- A three-object universe with a reachable name collision: objects 0 and 2
are distinct instances both named "f", and 0 uses 2. -/
def envDemo : FuncEnv 3 :=
  { name := fun i => if i.val = 1 then "g" else "f",
    uses := fun i => if i.val = 0 then [2] else [] }

/-- Witness for C8: constructing a runtime over `envDemo` from seed 0 fails,
because the distinct same-named object 2 is transitively referenced. -/
theorem registration_bfs_collision_iff_witness :
    ∃ msg, bfsRegister envDemo [(0 : Fin 3)] ∅ = Except.error msg :=
  (registration_bfs_collision_iff envDemo [(0 : Fin 3)]).1.mpr
    ⟨0, 2, @ReachesSpec.root 3 envDemo [(0 : Fin 3)] 0 (by decide),
      @ReachesSpec.step 3 envDemo [(0 : Fin 3)] 0 2
        (@ReachesSpec.root 3 envDemo [(0 : Fin 3)] 0 (by decide)) (by decide),
      by decide, by decide⟩

end Netflux
